import Mathlib

/-!
# Bin-addressing core of the histogram iterator

A shallow embedding of `include/boost/histogram/iterator.hpp`:
the descriptor type `dim_t`, the stride table builder `dim_visitor`,
`detail::decode`, the lazily decoding cursor `detail::multi_index`, and the
comparison of `iterator_over`.

Machine integers are embedded with their width: `std::size_t` values are
naturals below `2 ^ 64` with every operation reduced modulo `2 ^ 64`, and
`int` values are integers in `[-2 ^ 31, 2 ^ 31)` with every operation and
conversion wrapped into that range (two's complement: a signed overflow is
taken to wrap around).  A division by zero and an access outside the
descriptor table are the result `none`.

The arithmetic is written with case distinctions instead of sums with
`2 ^ 64` or `2 ^ 31`, so that terms with variables stay small under
evaluation; `wrap_int_mod` and `sz_sub_mod` give the usual modular forms.
-/

namespace boost.histogram

/-! ## Machine arithmetic -/

/-- Number of values of `std::size_t` (64 bit). -/
def SIZE_MOD : Nat := 2 ^ 64

/-- Largest value of `int` (32 bit). -/
def INT_MAX : Int := 2147483647

/-- Conversion of an integer value to `int`: the value in `[-2 ^ 31, 2 ^ 31)`
congruent to `n` modulo `2 ^ 32`. -/
def wrap_int (n : Int) : Int :=
  if (n % 4294967296).toNat < 2147483648 then ((n % 4294967296).toNat : Int)
  else ((n % 4294967296).toNat : Int) - 4294967296

/-- Conversion `std::size_t -> int`, as in `dims->idx = idx`. -/
def sz_to_int (n : Nat) : Int := wrap_int (n : Int)

/-- Conversion `int -> std::size_t`, as applied to the `int` operand of
`dims->idx * dims->stride` and of `stride *= a.shape()`. -/
def int_to_sz (i : Int) : Nat := (i % (SIZE_MOD : Int)).toNat

/-- Multiplication of `std::size_t`. -/
def sz_mul (a b : Nat) : Nat := (a * b) % SIZE_MOD

/-- Subtraction of `std::size_t`: `a - b` modulo `2 ^ 64`, for operands below
`2 ^ 64`. -/
def sz_sub (a b : Nat) : Nat := if b ≤ a then a - b else SIZE_MOD - (b - a)

/-- Addition of `int`. -/
def int_add (a b : Int) : Int := wrap_int (a + b)

/-- Subtraction of `int`. -/
def int_sub (a b : Int) : Int := wrap_int (a - b)

/-- Multiplication of `int`. -/
def int_mul (a b : Int) : Int := wrap_int (a * b)

/-- A `bool` promoted to `int`. -/
def bool_to_int (b : Bool) : Int := if b then 1 else 0

/-! ## Axes and descriptors -/

/-- Modelled from the spec: the axis types are only forward declared in
`histogram_fwd.hpp`.  An axis has an integer `size` (count of regular bins)
and a flag saying whether underflow and overflow cells exist (`uoflow`, the
name the stream operators use). -/
structure Axis where
  size : Int
  uoflow : Bool
deriving DecidableEq, Repr

/-- Modelled from the spec: the total extent `shape()` of an axis is
`size + 2` if flow bins exist, else `size`. -/
def Axis.shape (a : Axis) : Int := if a.uoflow then a.size + 2 else a.size

/-- An axis is well formed for its C++ type: `size()` is a count of bins and
`size()` and `shape()` are values of `int`. -/
def Axis.wf (a : Axis) : Prop := 0 ≤ a.size ∧ a.shape ≤ INT_MAX

instance (a : Axis) : Decidable a.wf := by
  unfold Axis.wf; exact inferInstance

/-- The descriptor `struct dim_t { int idx, size; std::size_t stride; }`. -/
structure dim_t where
  idx : Int
  size : Int
  stride : Nat
deriving DecidableEq, Repr

/-- State of `struct dim_visitor`: the running `stride` and the descriptors
written so far through the output pointer `dims`. -/
structure dim_visitor where
  stride : Nat
  dims : List dim_t
deriving DecidableEq, Repr

/-- The call operator of `dim_visitor`:
`*dims++ = dim_t{0, a.size(), stride}; stride *= a.shape();`. -/
def dim_visitor.visit (v : dim_visitor) (a : Axis) : dim_visitor :=
  { stride := sz_mul v.stride (int_to_sz a.shape),
    dims := v.dims ++ [{ idx := 0, size := a.size, stride := v.stride }] }

/-- The histogram method `for_each_axis`: calls the visitor on every axis in
axis order. -/
def for_each_axis (axes : List Axis) (v : dim_visitor) : dim_visitor :=
  axes.foldl dim_visitor.visit v

/-- The stride table built by `h.for_each_axis(dim_visitor{1, dims_.get()})`. -/
def stride_table (axes : List Axis) : List dim_t :=
  (for_each_axis axes { stride := 1, dims := [] }).dims

/-- The stride the visitor holds after the last axis: the product of all
extents in `std::size_t` arithmetic, the number of cells of the histogram. -/
def total_cells (axes : List Axis) : Nat :=
  (for_each_axis axes { stride := 1, dims := [] }).stride

/-- The product of all extents in exact arithmetic. -/
def exact_cells (axes : List Axis) : Int := (axes.map Axis.shape).prod

/-! ## decode -/

/-- The fold `dims->idx -= (dims->idx > dims->size) * (dims->size + 2);`. -/
def remap (i size : Int) : Int :=
  int_sub i (int_mul (bool_to_int (decide (i > size))) (int_add size 2))

/-- Body of the loop of `decode` on the descriptor `dims` points to:
`dims->idx = idx / dims->stride; idx -= dims->idx * dims->stride;` and the
fold.  Returns the new `idx` and the rewritten descriptor. -/
def decode_step (idx : Nat) (d : dim_t) : Nat × dim_t :=
  let i1 := sz_to_int (idx / d.stride)
  (sz_sub idx (sz_mul (int_to_sz i1) d.stride), { d with idx := remap i1 d.size })

/-- The two statements after the loop of `decode`: `dims->idx = idx;` and
the fold. -/
def decode_last (idx : Nat) (d : dim_t) : dim_t :=
  { d with idx := remap (sz_to_int idx) d.size }

/-- The loop `while ((--dims, --dim)) { ... }` of `decode` with the pointer at
position `p` after the decrement: the body runs on positions `p, p-1, ..., 1`
and the loop exits with the pointer on position `0`.  A position outside the
table or a zero stride (division by zero) gives `none`. -/
def decode_loop : Nat → Nat → List dim_t → Option (Nat × List dim_t)
  | 0, idx, dims => some (idx, dims)
  | p + 1, idx, dims =>
    match dims[p + 1]? with
    | none => none
    | some d =>
      if d.stride = 0 then none
      else decode_loop p (decode_step idx d).1 (dims.set (p + 1) (decode_step idx d).2)

/-- The function `void decode(std::size_t idx, unsigned dim, dim_t *dims)`.
With `dim = 0` the first `--dims` leaves the table and `--dim` wraps around,
so the body runs outside the table: `none`. -/
def decode (idx : Nat) (dim : Nat) (dims : List dim_t) : Option (List dim_t) :=
  if dim = 0 then none
  else
    match decode_loop (dim - 1) idx dims with
    | none => none
    | some r =>
      match r.2[0]? with
      | none => none
      | some d => some (r.2.set 0 (decode_last r.1 d))

/-- The fields of a descriptor that `decode` reads but never writes. -/
def dim_t.static (d : dim_t) : Int × Nat := (d.size, d.stride)

/-! ## encode (from the spec) -/

/-- Modelled from the spec: `raw_index_k` is the signed index remapped back to
unsigned by adding `size_k + 2` when negative. -/
def raw_index (i size : Int) : Int := if i < 0 then i + size + 2 else i

/-- Modelled from the spec: `flat_index` is the sum over axes of
`raw_index_k * stride_k`; the index tuple is the one held in the
descriptors' current-index fields. -/
def encode (dims : List dim_t) : Int :=
  (dims.map (fun d => raw_index d.idx d.size * (d.stride : Int))).sum

/-- The descriptors `dims` with the tuple `is` written into their
current-index fields. -/
def with_indices (dims : List dim_t) (is : List Int) : List dim_t :=
  List.zipWith (fun d i => { d with idx := i }) dims is

/-- The valid signed range of an index on an axis: `[-1, size]` with flow
bins, `[0, size)` without. -/
def Axis.valid_index (a : Axis) (i : Int) : Prop :=
  if a.uoflow then -1 ≤ i ∧ i ≤ a.size else 0 ≤ i ∧ i < a.size

instance (a : Axis) (i : Int) : Decidable (a.valid_index i) := by
  unfold Axis.valid_index; exact inferInstance

/-- Four axes without flow bins, of sizes `2 ^ 30`, `2 ^ 30`, `17` and `2`:
the product of the first three extents is `17 * 2 ^ 60`, above `2 ^ 64`. -/
def wide_axes : List Axis :=
  [⟨1073741824, false⟩, ⟨1073741824, false⟩, ⟨17, false⟩, ⟨2, false⟩]

/-! ## multi_index -/

/-- The data members of `class multi_index`. -/
structure multi_index where
  dim_ : Nat
  idx_ : Nat
  last_ : Nat
  dims_ : List dim_t
deriving DecidableEq, Repr

/-- The constructor `multi_index(const Histogram &h, std::size_t idx)`; the
histogram is given by its axis list. -/
def multi_index.make (axes : List Axis) (idx : Nat) : multi_index :=
  { dim_ := axes.length, idx_ := idx, last_ := 0, dims_ := stride_table axes }

/-- The copy constructor `multi_index(const multi_index &o)`: a new table of
`o.dim_` descriptors filled by `std::copy` from the first `o.dim_` of `o`. -/
def multi_index.copy (o : multi_index) : multi_index :=
  { dim_ := o.dim_, idx_ := o.idx_, last_ := o.last_, dims_ := o.dims_.take o.dim_ }

/-- The method `idx` with the function it calls in its refreshing branch as a
parameter `dec`. -/
def multi_index.idx_with (dec : Nat → Nat → List dim_t → Option (List dim_t))
    (c : multi_index) (dim : Nat) : Option (Int × multi_index) :=
  if c.idx_ ≠ c.last_ then
    match dec c.idx_ c.dim_ c.dims_ with
    | none => none
    | some ds =>
      match ds[dim]? with
      | none => none
      | some d => some (d.idx, { c with last_ := c.idx_, dims_ := ds })
  else
    match c.dims_[dim]? with
    | none => none
    | some d => some (d.idx, c)

/-- The method `int idx(unsigned dim = 0) const noexcept`: returns the value
and the cursor with its rewritten cache; reading outside the table is `none`. -/
def multi_index.idx (c : multi_index) (dim : Nat) : Option (Int × multi_index) :=
  multi_index.idx_with decode c dim

/-- The method `void increment() noexcept { ++idx_; }`. -/
def multi_index.increment (c : multi_index) : multi_index :=
  { c with idx_ := (c.idx_ + 1) % SIZE_MOD }

/-- The method `void decrement() noexcept { --idx_; }`. -/
def multi_index.decrement (c : multi_index) : multi_index :=
  { c with idx_ := sz_sub c.idx_ 1 }

/-- The cursor states reachable from `multi_index(h, F0)` by `increment`,
`decrement` and `idx` calls. -/
inductive multi_index.Reachable (axes : List Axis) (F0 : Nat) : multi_index → Prop
  | make : multi_index.Reachable axes F0 (multi_index.make axes F0)
  | increment {c : multi_index} :
      multi_index.Reachable axes F0 c → multi_index.Reachable axes F0 c.increment
  | decrement {c : multi_index} :
      multi_index.Reachable axes F0 c → multi_index.Reachable axes F0 c.decrement
  | idx {c c' : multi_index} {k : Nat} {v : Int} :
      multi_index.Reachable axes F0 c → c.idx k = some (v, c') →
      multi_index.Reachable axes F0 c'

/-! ## iterator_over -/

/-- The class `iterator_over`: a `multi_index` with the references
`histogram_` and `storage_`; a reference is given by the address of the object
it refers to. -/
structure iterator_over where
  base : multi_index
  histogram_ : Nat
  storage_ : Nat
deriving DecidableEq, Repr

/-- The constructor `iterator_over(const Histogram &h, const Storage &s,
std::size_t idx)`; `h` is given by its address and its axis list. -/
def iterator_over.make (h : Nat) (axes : List Axis) (s : Nat) (idx : Nat) : iterator_over :=
  { base := multi_index.make axes idx, histogram_ := h, storage_ := s }

/-- The defaulted copy constructor of `iterator_over`: copies the base and
binds both references to the same objects. -/
def iterator_over.copy (o : iterator_over) : iterator_over :=
  { base := o.base.copy, histogram_ := o.histogram_, storage_ := o.storage_ }

/-- The method `equal`:
`&storage_ == &rhs.storage_ && idx_ == rhs.idx_`. -/
def iterator_over.equal (a rhs : iterator_over) : Bool :=
  decide (a.storage_ = rhs.storage_) && decide (a.base.idx_ = rhs.base.idx_)

/-- The inherited `increment` on an `iterator_over`. -/
def iterator_over.increment (a : iterator_over) : iterator_over :=
  { a with base := a.base.increment }

/-- The inherited `decrement` on an `iterator_over`. -/
def iterator_over.decrement (a : iterator_over) : iterator_over :=
  { a with base := a.base.decrement }

/-- The inherited `idx` on an `iterator_over`. -/
def iterator_over.idx (a : iterator_over) (dim : Nat) : Option (Int × iterator_over) :=
  match a.base.idx dim with
  | none => none
  | some r => some (r.1, { a with base := r.2 })

/-! ## Definitions for traversal, bins, copies and the reference decoders -/

/-- The facade's `operator++` applied `n` times in a row: `n` calls of
`increment`. -/
def iterator_over.increment_times : Nat → iterator_over → iterator_over
  | 0, a => a
  | n + 1, a => iterator_over.increment_times n a.increment

/-- Modelled from the spec: what the cursor consumes from the histogram, whose
class is only forward declared in `histogram_fwd.hpp`: the ordered axis list
and the per-axis bin accessor `axis(position)[signed_index]`, which gives a
bin descriptor of some type `β`. -/
structure Histogram (β : Type) where
  axes : List Axis
  axis : Nat → Int → β

/-- The objects the references `histogram_` and `storage_` of the cursors refer
to, by address.  A value storage is the sequence of its cells; `operator[]` is
the lookup of a position, outside the sequence it is `none`. -/
structure Memory (β γ : Type) where
  histogram : Nat → Histogram β
  storage : Nat → List γ

/-- The method `bin()`: `histogram_.axis(mp11::mp_int<0>())[idx(0)]`. -/
def iterator_over.bin {β γ : Type} (m : Memory β γ) (a : iterator_over) :
    Option (β × iterator_over) :=
  match a.idx 0 with
  | none => none
  | some r => some ((m.histogram a.histogram_).axis 0 r.1, r.2)

/-- The method `bin(mp11::mp_int<Dim>)`:
`histogram_.axis(mp11::mp_int<Dim>())[idx(Dim)]`. -/
def iterator_over.bin_mp {β γ : Type} (m : Memory β γ) (a : iterator_over) (Dim : Nat) :
    Option (β × iterator_over) :=
  match a.idx Dim with
  | none => none
  | some r => some ((m.histogram a.histogram_).axis Dim r.1, r.2)

/-- The method `bin(unsigned dim)`: `histogram_.axis(dim)[idx(dim)]`. -/
def iterator_over.bin_dim {β γ : Type} (m : Memory β γ) (a : iterator_over) (dim : Nat) :
    Option (β × iterator_over) :=
  match a.idx dim with
  | none => none
  | some r => some ((m.histogram a.histogram_).axis dim r.1, r.2)

/-- The method `dereference`: `storage_[idx_]`. -/
def iterator_over.dereference {β γ : Type} (m : Memory β γ) (a : iterator_over) : Option γ :=
  (m.storage a.storage_)[a.base.idx_]?

/-- Decrement of a 32-bit `unsigned`: 0 wraps around to `2 ^ 32 - 1`. -/
def u32_dec (n : Nat) : Nat := if 1 ≤ n then n - 1 else 4294967295

/-- The loop condition `(--dims, --dim)` of `decode`, evaluated with the
pointer on position `p` and the counter `dim`: the position and the counter
after the two decrements, and whether the body is entered. -/
def loop_condition (p : Int) (dim : Nat) : Int × Nat × Bool :=
  (p - 1, u32_dec dim, decide (u32_dec dim ≠ 0))

/-- The fold in the words of the claims: `q - (size + 2)` if `q > size` and `q`
otherwise, in exact arithmetic. -/
def fold_ref (size q : Int) : Int := if q > size then q - (size + 2) else q

/-- The uniform loop in the words of the claims: the loop body of `decode`
(quotient by stride, subtract quotient times stride, fold) on the positions
`n - 1, ..., 0`. -/
def decode_uniform_loop : Nat → Nat → List dim_t → Option (Nat × List dim_t)
  | 0, idx, dims => some (idx, dims)
  | n + 1, idx, dims =>
    match dims[n]? with
    | none => none
    | some d =>
      if d.stride = 0 then none
      else decode_uniform_loop n (decode_step idx d).1 (dims.set n (decode_step idx d).2)

/-- The uniform decode in the words of the claims: the loop body applied to
every axis from `dim - 1` down to `0`. -/
def decode_uniform (idx : Nat) (dim : Nat) (dims : List dim_t) : Option (List dim_t) :=
  if dim = 0 then none
  else
    match decode_uniform_loop dim idx dims with
    | none => none
    | some r => some r.2

/-- The copy assignment `multi_index &operator=(const multi_index &o)` for
`this != &o` (for `this == &o` nothing is done): a new table of `o.dim_`
descriptors if the dimension counts differ, then the members of `o` and
`std::copy` of the first `o.dim_` descriptors of `o` into the table. -/
def multi_index.assign (c o : multi_index) : multi_index :=
  { dim_ := o.dim_, idx_ := o.idx_, last_ := o.last_,
    dims_ := if c.dim_ ≠ o.dim_ then o.dims_.take o.dim_
      else o.dims_.take o.dim_ ++ c.dims_.drop o.dim_ }

/-- The cursor states reachable from constructions `multi_index(h, F0)` over
non-empty lists of well-formed axes with extents of at least 1, by
`increment`, `decrement`, `idx`, copy construction from a reachable state and
copy assignment from a reachable state. -/
inductive multi_index.ReachableCopy : multi_index → Prop
  | make (axes : List Axis) (F0 : Nat) :
      axes ≠ [] → (∀ a ∈ axes, a.wf) → (∀ a ∈ axes, 1 ≤ a.shape) →
      multi_index.ReachableCopy (multi_index.make axes F0)
  | increment {c : multi_index} :
      multi_index.ReachableCopy c → multi_index.ReachableCopy c.increment
  | decrement {c : multi_index} :
      multi_index.ReachableCopy c → multi_index.ReachableCopy c.decrement
  | idx {c c' : multi_index} {k : Nat} {v : Int} :
      multi_index.ReachableCopy c → c.idx k = some (v, c') →
      multi_index.ReachableCopy c'
  | copy {o : multi_index} :
      multi_index.ReachableCopy o → multi_index.ReachableCopy o.copy
  | assign {c o : multi_index} :
      multi_index.ReachableCopy c → multi_index.ReachableCopy o →
      multi_index.ReachableCopy (c.assign o)

/-- Four axes, the third with flow bins: sizes `2 ^ 30`, `2 ^ 30`, `15` (extent
17) and `2`; the product of the first three extents is `17 * 2 ^ 60`. -/
def wide_flow_axes : List Axis :=
  [⟨1073741824, false⟩, ⟨1073741824, false⟩, ⟨15, true⟩, ⟨2, false⟩]

/-- Four axes without flow bins, of sizes `2 ^ 30`, `2 ^ 30`, `16` and `1`:
the product of the first three extents is `2 ^ 64`. -/
def zero_stride_axes : List Axis :=
  [⟨1073741824, false⟩, ⟨1073741824, false⟩, ⟨16, false⟩, ⟨1, false⟩]

/-! ## Facts of the machine arithmetic -/

theorem SIZE_MOD_eq : SIZE_MOD = 18446744073709551616 := by
  unfold SIZE_MOD; norm_num

theorem wrap_int_mod (n : Int) :
    wrap_int n = (n + 2147483648) % 4294967296 - 2147483648 := by
  unfold wrap_int; omega

theorem wrap_int_eq (n : Int) (h1 : -2147483648 ≤ n) (h2 : n ≤ 2147483647) :
    wrap_int n = n := by
  unfold wrap_int; omega

theorem sz_sub_mod (a b : Nat) (ha : a < SIZE_MOD) (hb : b < SIZE_MOD) :
    sz_sub a b = (a + SIZE_MOD - b) % SIZE_MOD := by
  unfold sz_sub
  rw [SIZE_MOD_eq] at *
  split <;> omega

theorem int_to_sz_natCast (n : Nat) (h : n < SIZE_MOD) : int_to_sz (n : Int) = n := by
  unfold int_to_sz
  rw [SIZE_MOD_eq] at *
  omega

theorem remap_low (i size : Int) (h0 : 0 ≤ i) (h1 : i ≤ size) (h2 : i ≤ 2147483647) :
    remap i size = i := by
  unfold remap int_sub int_mul int_add bool_to_int
  have : ¬ (i > size) := by omega
  simp only [this, decide_False, Bool.false_eq_true, if_false, zero_mul]
  rw [wrap_int_eq 0 (by omega) (by omega), sub_zero]
  exact wrap_int_eq i (by omega) h2

theorem remap_high (i size : Int) (h1 : i = size + 1) : remap i size = -1 := by
  unfold remap int_sub int_mul int_add bool_to_int
  have : (i > size) := by omega
  simp only [this, decide_True, if_true, one_mul]
  rw [wrap_int_mod, wrap_int_mod, wrap_int_mod]
  omega

theorem decode_step_eq (F : Nat) (d : dim_t) (hF : F < SIZE_MOD)
    (hq : F / d.stride ≤ 2147483647) :
    decode_step F d =
      (F % d.stride, { d with idx := remap ((F / d.stride : Nat) : Int) d.size }) := by
  have hw : sz_to_int (F / d.stride) = ((F / d.stride : Nat) : Int) := by
    unfold sz_to_int
    generalize F / d.stride = q at hq
    apply wrap_int_eq <;> omega
  have hle : F / d.stride * d.stride ≤ F := Nat.div_mul_le_self F d.stride
  have hq2 : F / d.stride < SIZE_MOD := by rw [SIZE_MOD_eq] at *; omega
  have hm : sz_mul (F / d.stride) d.stride = F / d.stride * d.stride := by
    unfold sz_mul; apply Nat.mod_eq_of_lt; omega
  have hmod : F % d.stride = F - F / d.stride * d.stride := by
    have := Nat.div_add_mod F d.stride
    have h2 : d.stride * (F / d.stride) = F / d.stride * d.stride := Nat.mul_comm _ _
    omega
  have hsub : sz_sub F (F / d.stride * d.stride) = F % d.stride := by
    unfold sz_sub
    rw [if_pos hle, hmod]
  unfold decode_step
  simp only [hw, int_to_sz_natCast _ hq2, hm, hsub]

/-! ## Structure of decode -/

theorem decode_step_static (idx : Nat) (d : dim_t) :
    (decode_step idx d).2.static = d.static := rfl

theorem decode_last_static (idx : Nat) (d : dim_t) :
    (decode_last idx d).static = d.static := rfl

theorem decode_loop_succ (p idx : Nat) (ds : List dim_t) : decode_loop (p + 1) idx ds =
    match ds[p + 1]? with
    | none => none
    | some d =>
      if d.stride = 0 then none
      else decode_loop p (decode_step idx d).1 (ds.set (p + 1) (decode_step idx d).2) := by
  rw [decode_loop]

theorem map_static_set (p : Nat) (ds : List dim_t) (d x : dim_t) (hd : ds[p]? = some d)
    (hx : x.static = d.static) :
    (ds.set p x).map dim_t.static = ds.map dim_t.static := by
  obtain ⟨hlt, hget⟩ := List.getElem?_eq_some_iff.mp hd
  apply List.ext_getElem (by simp)
  intro n h1 h2
  simp only [List.getElem_map, List.getElem_set]
  split
  · next heq => subst heq; rw [hx, hget]
  · rfl

theorem decode_loop_static (p : Nat) : ∀ (idx : Nat) (ds : List dim_t) (r : Nat × List dim_t),
    decode_loop p idx ds = some r →
      r.2.length = ds.length ∧ r.2.map dim_t.static = ds.map dim_t.static := by
  induction p with
  | zero =>
    intro idx ds r h
    rw [decode_loop, Option.some.injEq] at h
    subst h; exact ⟨rfl, rfl⟩
  | succ p ih =>
    intro idx ds r h
    rw [decode_loop_succ] at h
    cases hd : ds[p + 1]? with
    | none => rw [hd] at h; exact absurd h (by simp)
    | some d =>
      simp only [hd] at h
      by_cases hs : d.stride = 0
      · rw [if_pos hs] at h; exact absurd h (by simp)
      · rw [if_neg hs] at h
        obtain ⟨h1, h2⟩ := ih _ _ _ h
        rw [List.length_set] at h1
        exact ⟨h1, h2.trans (map_static_set _ ds d _ hd (decode_step_static idx d))⟩

theorem decode_loop_append (p : Nat) : ∀ (idx : Nat) (pre post : List dim_t), p < pre.length →
    decode_loop p idx (pre ++ post) =
      (decode_loop p idx pre).map (fun x => (x.1, x.2 ++ post)) := by
  induction p with
  | zero => intro idx pre post _; simp [decode_loop]
  | succ p ih =>
    intro idx pre post hp
    rw [decode_loop_succ, decode_loop_succ, List.getElem?_append_left hp]
    cases hd : pre[p + 1]? with
    | none => simp
    | some d =>
      simp only
      by_cases hs : d.stride = 0
      · simp [hs]
      · rw [if_neg hs, if_neg hs, List.set_append_left _ _ hp]
        exact ih _ _ _ (by rw [List.length_set]; omega)

theorem decode_single (idx : Nat) (d : dim_t) : decode idx 1 [d] = some [decode_last idx d] := by
  simp [decode, decode_loop]

theorem decode_snoc (idx : Nat) (pre : List dim_t) (d : dim_t) (hpre : pre ≠ []) :
    decode idx (pre.length + 1) (pre ++ [d]) =
      if d.stride = 0 then none
      else (decode (decode_step idx d).1 pre.length pre).map
        (fun ds => ds ++ [(decode_step idx d).2]) := by
  obtain ⟨m, hm⟩ : ∃ m, pre.length = m + 1 :=
    Nat.exists_eq_succ_of_ne_zero (by simpa using hpre)
  have hget : (pre ++ [d])[m + 1]? = some d := by
    rw [← hm, List.getElem?_append_right (le_refl _)]; simp
  have hset : ∀ x, (pre ++ [d]).set (m + 1) x = pre ++ [x] := by
    intro x; rw [← hm, List.set_append_right _ _ (le_refl _)]; simp
  unfold decode
  simp only [hm, Nat.add_sub_cancel, Nat.succ_ne_zero, if_false]
  rw [decode_loop_succ, hget]
  simp only [hset]
  by_cases hs : d.stride = 0
  · simp [hs]
  · rw [if_neg hs, if_neg hs, decode_loop_append m _ pre _ (by omega)]
    cases hl : decode_loop m (decode_step idx d).1 pre with
    | none => simp
    | some r =>
      have hlen := (decode_loop_static m _ _ _ hl).1
      have hr : r.2 ≠ [] := by
        intro h; rw [h] at hlen; simp at hlen; omega
      obtain ⟨x, xs, hx⟩ := List.exists_cons_of_ne_nil hr
      simp [hx]

/-! ## The stride table builder -/

theorem for_each_axis_snoc (l : List Axis) (a : Axis) (v : dim_visitor) :
    for_each_axis (l ++ [a]) v = (for_each_axis l v).visit a := by
  unfold for_each_axis; rw [List.foldl_append]; rfl

theorem stride_table_nil : stride_table [] = [] := rfl

theorem total_cells_nil : total_cells [] = 1 := rfl

theorem stride_table_snoc (l : List Axis) (a : Axis) :
    stride_table (l ++ [a]) =
      stride_table l ++ [{ idx := 0, size := a.size, stride := total_cells l }] := by
  unfold stride_table total_cells; rw [for_each_axis_snoc]; rfl

theorem total_cells_snoc (l : List Axis) (a : Axis) :
    total_cells (l ++ [a]) = sz_mul (total_cells l) (int_to_sz a.shape) := by
  unfold total_cells; rw [for_each_axis_snoc]; rfl

theorem stride_table_length (l : List Axis) : (stride_table l).length = l.length := by
  induction l using List.reverseRecOn with
  | nil => rfl
  | append_singleton l a ih => rw [stride_table_snoc]; simp [ih]

theorem total_cells_lt (l : List Axis) : total_cells l < SIZE_MOD := by
  induction l using List.reverseRecOn with
  | nil => rw [total_cells_nil, SIZE_MOD_eq]; omega
  | append_singleton l a _ =>
    rw [total_cells_snoc]; unfold sz_mul
    exact Nat.mod_lt _ (by rw [SIZE_MOD_eq]; omega)

theorem int_to_sz_shape (a : Axis) (h : a.wf) :
    ((int_to_sz a.shape : Nat) : Int) = a.shape ∧ 0 ≤ a.shape ∧ a.shape ≤ 2147483647 := by
  obtain ⟨h0, h1⟩ := h
  unfold INT_MAX at h1
  have h2 : 0 ≤ a.shape := by unfold Axis.shape; split <;> omega
  refine ⟨?_, h2, h1⟩
  unfold int_to_sz; rw [SIZE_MOD_eq]; omega

/-- In range: a raw position below the extent folds to a valid index whose
raw position it is. -/
theorem remap_valid (a : Axis) (h : a.wf) (q : Nat) (hq : (q : Int) < a.shape) :
    a.valid_index (remap q a.size) ∧ raw_index (remap q a.size) a.size = q := by
  obtain ⟨h0, h1⟩ := h
  unfold INT_MAX at h1
  unfold Axis.shape at hq h1
  unfold Axis.valid_index raw_index
  by_cases hf : a.uoflow = true
  · simp only [hf, if_true] at hq h1 ⊢
    by_cases hle : (q : Int) ≤ a.size
    · rw [remap_low _ _ (by omega) hle (by omega)]
      refine ⟨⟨by omega, hle⟩, ?_⟩
      rw [if_neg (by omega)]
    · rw [remap_high _ _ (by omega)]
      refine ⟨⟨by omega, by omega⟩, ?_⟩
      rw [if_pos (by omega)]; omega
  · simp only [hf, Bool.false_eq_true, if_false] at hq h1 ⊢
    rw [remap_low _ _ (by omega) (by omega) (by omega)]
    refine ⟨⟨by omega, hq⟩, ?_⟩
    rw [if_neg (by omega)]

theorem encode_snoc (ds : List dim_t) (d : dim_t) :
    encode (ds ++ [d]) = encode ds + raw_index d.idx d.size * (d.stride : Int) := by
  unfold encode; simp

/-- What `decode` does on a builder-made table for a flat index below the
number of cells. -/
theorem decode_stride_table (axes : List Axis) :
    axes ≠ [] → (∀ a ∈ axes, a.wf) → ∀ F : Nat, F < total_cells axes →
    ∃ ds, decode F axes.length (stride_table axes) = some ds ∧
      ds.map dim_t.static = (stride_table axes).map dim_t.static ∧
      encode ds = (F : Int) ∧
      List.Forall₂ (fun a d => a.valid_index d.idx) axes ds := by
  induction axes using List.reverseRecOn with
  | nil => intro h; exact absurd rfl h
  | append_singleton l a ih =>
    intro _ hwf F hF
    have hwa : a.wf := hwf a (by simp)
    have hwl : ∀ b ∈ l, b.wf := fun b hb => hwf b (by simp [hb])
    obtain ⟨hsh, hsh0, hsh1⟩ := int_to_sz_shape a hwa
    rw [total_cells_snoc] at hF
    have hFM : F < SIZE_MOD := lt_trans hF (Nat.mod_lt _ (by rw [SIZE_MOD_eq]; omega))
    have hFp : F < total_cells l * int_to_sz a.shape :=
      lt_of_lt_of_le hF (Nat.mod_le _ _)
    rw [stride_table_snoc, List.length_append, List.length_singleton]
    by_cases hl : l = []
    · subst hl
      rw [total_cells_nil, one_mul] at hFp
      simp only [stride_table_nil, List.nil_append, List.length_nil, zero_add]
      rw [decode_single]
      have hq : ((F : Nat) : Int) < a.shape := by omega
      have hw : sz_to_int F = (F : Int) := by
        unfold sz_to_int; apply wrap_int_eq <;> omega
      obtain ⟨hv, hr⟩ := remap_valid a hwa F hq
      refine ⟨_, rfl, rfl, ?_, ?_⟩
      · unfold encode decode_last
        simp only [hw, List.map_cons, List.map_nil, List.sum_cons, List.sum_nil, hr, total_cells_nil]
        simp
      · unfold decode_last
        simp only [hw]
        exact List.Forall₂.cons hv List.Forall₂.nil
    · have hT : total_cells l ≠ 0 := by
        intro h0; rw [h0, zero_mul] at hFp; omega
      have hqlt : F / total_cells l < int_to_sz a.shape :=
        Nat.div_lt_of_lt_mul hFp
      have hq : ((F / total_cells l : Nat) : Int) < a.shape := by omega
      have hrlt : F % total_cells l < total_cells l := Nat.mod_lt _ (Nat.pos_of_ne_zero hT)
      obtain ⟨ds0, hd0, hs0, he0, hv0⟩ := ih hl hwl _ hrlt
      obtain ⟨hv, hr⟩ := remap_valid a hwa _ hq
      have hlen : l.length = (stride_table l).length := (stride_table_length l).symm
      rw [hlen, decode_snoc _ _ _ (by
        intro h; rw [h] at hlen; simp at hlen; exact hl hlen)]
      simp only [hT, if_false]
      rw [decode_step_eq _ _ hFM (by simp only; omega)]
      simp only
      rw [← hlen, hd0]
      refine ⟨_, rfl, ?_, ?_, ?_⟩
      · simp only [List.map_append, hs0, List.map_cons, List.map_nil]; rfl
      · rw [encode_snoc, he0]
        simp only [hr]
        have := Nat.div_add_mod F (total_cells l)
        have h2 : (total_cells l : Int) * ((F / total_cells l : Nat) : Int) +
            ((F % total_cells l : Nat) : Int) = (F : Int) := by exact_mod_cast this
        linarith
      · exact List.rel_append hv0 (List.Forall₂.cons hv List.Forall₂.nil)

/-! ## decode after encode -/

/-- A valid index has a raw position below the extent, and the fold of
`decode` maps that raw position back to the index. -/
theorem raw_index_valid (a : Axis) (h : a.wf) (i : Int) (hi : a.valid_index i) :
    0 ≤ raw_index i a.size ∧ raw_index i a.size < a.shape ∧
      remap (raw_index i a.size) a.size = i := by
  obtain ⟨h0, h1⟩ := h
  unfold INT_MAX at h1
  unfold Axis.shape at h1 ⊢
  unfold Axis.valid_index at hi
  unfold raw_index
  by_cases hf : a.uoflow = true
  · simp only [hf, if_true] at hi h1 ⊢
    by_cases hneg : i < 0
    · rw [if_pos hneg]
      exact ⟨by omega, by omega, by rw [remap_high _ _ (by omega)]; omega⟩
    · rw [if_neg hneg]
      exact ⟨by omega, by omega, remap_low _ _ (by omega) hi.2 (by omega)⟩
  · simp only [hf, Bool.false_eq_true, if_false] at hi h1 ⊢
    rw [if_neg (by omega)]
    exact ⟨hi.1, hi.2, remap_low _ _ hi.1 (by omega) (by omega)⟩

theorem with_indices_snoc (ds : List dim_t) (is : List Int) (d : dim_t) (i : Int)
    (h : ds.length = is.length) :
    with_indices (ds ++ [d]) (is ++ [i]) = with_indices ds is ++ [{ d with idx := i }] := by
  unfold with_indices; rw [List.zipWith_append _ _ _ _ _ h]; rfl

theorem exact_cells_snoc (l : List Axis) (a : Axis) :
    exact_cells (l ++ [a]) = exact_cells l * a.shape := by
  unfold exact_cells; simp

/-- The round trip on a list of axes paired with their indices. -/
theorem decode_encode_pairs (l : List (Axis × Int)) :
    l ≠ [] → (∀ p ∈ l, p.1.wf ∧ p.1.valid_index p.2) →
    exact_cells (l.map Prod.fst) < (SIZE_MOD : Int) →
    (total_cells (l.map Prod.fst) : Int) = exact_cells (l.map Prod.fst) ∧
    0 ≤ encode (with_indices (stride_table (l.map Prod.fst)) (l.map Prod.snd)) ∧
    encode (with_indices (stride_table (l.map Prod.fst)) (l.map Prod.snd)) <
      (total_cells (l.map Prod.fst) : Int) ∧
    decode (encode (with_indices (stride_table (l.map Prod.fst)) (l.map Prod.snd))).toNat
        (l.map Prod.fst).length (stride_table (l.map Prod.fst)) =
      some (with_indices (stride_table (l.map Prod.fst)) (l.map Prod.snd)) := by
  induction l using List.reverseRecOn with
  | nil => intro h; exact absurd rfl h
  | append_singleton l p ih =>
    intro _ hv hex
    obtain ⟨a, i⟩ := p
    have hpa : a.wf ∧ a.valid_index i := hv (a, i) (by simp)
    have hvl : ∀ p ∈ l, p.1.wf ∧ p.1.valid_index p.2 := fun p hp => hv p (by simp [hp])
    obtain ⟨hsh, hsh0, hsh1⟩ := int_to_sz_shape a hpa.1
    obtain ⟨hr0, hr1, hrm⟩ := raw_index_valid a hpa.1 i hpa.2
    simp only [List.map_append, List.map_cons, List.map_nil] at hex ⊢
    rw [exact_cells_snoc] at hex ⊢
    rw [stride_table_snoc, total_cells_snoc,
      with_indices_snoc _ _ _ _ (by rw [stride_table_length]; simp),
      encode_snoc, List.length_append, List.length_singleton]
    simp only
    generalize hR : raw_index i a.size = R at hr0 hr1 hrm
    obtain ⟨Rn, rfl⟩ := Int.eq_ofNat_of_zero_le hr0
    obtain ⟨e, he⟩ := Int.eq_ofNat_of_zero_le hsh0
    have hen : int_to_sz a.shape = e := by
      have : ((int_to_sz a.shape : Nat) : Int) = (e : Int) := hsh.trans he
      exact_mod_cast this
    rw [hen]
    rw [he] at hex hr1 hsh1 ⊢
    have hRe : Rn < e := by exact_mod_cast hr1
    have hSM : ((SIZE_MOD : Nat) : Int) = 18446744073709551616 := by rw [SIZE_MOD_eq]; rfl
    by_cases hl : l = []
    · subst hl
      simp only [List.map_nil, stride_table_nil, total_cells_nil, with_indices, List.zipWith_nil_left,
        List.nil_append, List.length_nil, zero_add]
      have hx1 : exact_cells [] = 1 := rfl
      simp only [List.map_nil] at hex
      rw [hx1, one_mul] at hex ⊢
      have hE : encode [] = 0 := rfl
      rw [hE]
      have hm : sz_mul 1 e = e := by
        unfold sz_mul; rw [one_mul]; apply Nat.mod_eq_of_lt
        rw [SIZE_MOD_eq]; omega
      rw [hm, decode_single]
      refine ⟨rfl, by omega, by push_cast; omega, ?_⟩
      have hnat : (0 + (Rn : Int) * ((1 : Nat) : Int)).toNat = Rn := by omega
      rw [hnat]
      unfold decode_last
      have hw : sz_to_int Rn = (Rn : Int) := by
        unfold sz_to_int; apply wrap_int_eq <;> omega
      simp only [hw, hrm]
    · have hT0 : 0 ≤ exact_cells (l.map Prod.fst) := by
        unfold exact_cells
        apply List.prod_nonneg
        intro x hx
        simp only [List.mem_map, exists_exists_and_eq_and] at hx
        obtain ⟨p, hp, rfl⟩ := hx
        exact (int_to_sz_shape p.1 (hvl p hp).1).2.1
      have he1 : (1 : Int) ≤ e := by omega
      have hexl : exact_cells (l.map Prod.fst) < (SIZE_MOD : Int) := by
        calc exact_cells (l.map Prod.fst) = exact_cells (l.map Prod.fst) * 1 := (mul_one _).symm
          _ ≤ exact_cells (l.map Prod.fst) * e := by
            exact mul_le_mul_of_nonneg_left he1 hT0
          _ < _ := hex
      obtain ⟨hTx, hE0, hE1, hdec⟩ := ih hl hvl hexl
      generalize hTT : total_cells (l.map Prod.fst) = T at hTx hE1 hdec
      generalize hEE : encode (with_indices (stride_table (l.map Prod.fst)) (l.map Prod.snd)) = E
        at hE0 hE1 hdec
      obtain ⟨En, rfl⟩ := Int.eq_ofNat_of_zero_le hE0
      rw [← hTx] at hex
      have hEn : En < T := by exact_mod_cast hE1
      have hTe : T * e < SIZE_MOD := by exact_mod_cast hex
      have hm : sz_mul T e = T * e := by
        unfold sz_mul; exact Nat.mod_eq_of_lt hTe
      have hFlt : En + Rn * T < T * e := by
        have : (Rn + 1) * T ≤ e * T := Nat.mul_le_mul_right T hRe
        have h2 : e * T = T * e := Nat.mul_comm _ _
        have h3 : (Rn + 1) * T = Rn * T + T := by ring
        omega
      have hF : ((En : Int) + (Rn : Int) * (T : Int)).toNat = En + Rn * T := by
        have : ((En : Int) + (Rn : Int) * (T : Int)) = ((En + Rn * T : Nat) : Int) := by push_cast; rfl
        rw [this]; exact Int.toNat_natCast _
      have hdiv : (En + Rn * T) / T = Rn := by
        rw [Nat.add_mul_div_right _ _ (by omega), Nat.div_eq_of_lt hEn, zero_add]
      have hmod : (En + Rn * T) % T = En := by
        rw [Nat.add_mul_mod_self_right, Nat.mod_eq_of_lt hEn]
      rw [hm, hF]
      refine ⟨by rw [← hTx]; push_cast; rfl, by positivity, by exact_mod_cast hFlt, ?_⟩
      have hlen : (l.map Prod.fst).length = (stride_table (l.map Prod.fst)).length :=
        (stride_table_length _).symm
      have hne : stride_table (l.map Prod.fst) ≠ [] := by
        intro h; rw [h] at hlen; simp at hlen; exact hl hlen
      rw [hlen, decode_snoc _ _ _ hne]
      have hTne : T ≠ 0 := by omega
      simp only [hTne, if_false]
      rw [decode_step_eq _ _ (by omega) (by simp only; rw [hdiv]; omega)]
      simp only [hdiv, hmod, hrm]
      rw [Int.toNat_natCast] at hdec
      rw [← hlen, hdec]
      rfl

/-! ## Closed forms of the builder -/

theorem total_cells_prod (l : List Axis) :
    total_cells l = (l.map (fun a => int_to_sz a.shape)).prod % SIZE_MOD := by
  induction l using List.reverseRecOn with
  | nil => rw [total_cells_nil, SIZE_MOD_eq]; rfl
  | append_singleton l a ih =>
    rw [total_cells_snoc, ih]
    unfold sz_mul
    simp only [List.map_append, List.map_cons, List.map_nil, List.prod_append, List.prod_cons,
      List.prod_nil, mul_one]
    exact Nat.mod_mul_mod

theorem stride_table_getElem? (axes : List Axis) : ∀ (k : Nat) (a : Axis),
    axes[k]? = some a →
      (stride_table axes)[k]? =
        some { idx := 0, size := a.size, stride := total_cells (axes.take k) } := by
  induction axes using List.reverseRecOn with
  | nil => intro k a h; simp at h
  | append_singleton l b ih =>
    intro k a h
    rw [stride_table_snoc]
    by_cases hk : k < l.length
    · rw [List.getElem?_append_left hk] at h
      rw [List.getElem?_append_left (by rw [stride_table_length]; exact hk), ih k a h,
        List.take_append_of_le_length (le_of_lt hk)]
    · have hk2 : k = l.length := by
        have := (List.getElem?_eq_some_iff.mp h).1
        simp at this; omega
      subst hk2
      rw [List.getElem?_append_right (le_refl _)] at h
      simp only [Nat.sub_self, List.getElem?_cons_zero, Option.some.injEq] at h
      subst h
      rw [List.getElem?_append_right (by rw [stride_table_length]), stride_table_length]
      simp

theorem total_cells_exact (l : List Axis) (hwf : ∀ a ∈ l, a.wf)
    (h : exact_cells l < (SIZE_MOD : Int)) : (total_cells l : Int) = exact_cells l := by
  rw [total_cells_prod]
  have hp : (((l.map (fun a => int_to_sz a.shape)).prod : Nat) : Int) = exact_cells l := by
    unfold exact_cells
    clear h
    induction l with
    | nil => rfl
    | cons a l ih =>
      simp only [List.map_cons, List.prod_cons, Nat.cast_mul]
      rw [ih (fun b hb => hwf b (by simp [hb])), (int_to_sz_shape a (hwf a (by simp))).1]
  rw [← hp] at h
  rw [← hp, Nat.mod_eq_of_lt (by exact_mod_cast h)]

/-! ## decode reads sizes and strides only -/

theorem decode_static (F n : Nat) (ds ds' : List dim_t) (h : decode F n ds = some ds') :
    ds'.length = ds.length ∧ ds'.map dim_t.static = ds.map dim_t.static := by
  unfold decode at h
  by_cases hn : n = 0
  · rw [if_pos hn] at h; exact absurd h (by simp)
  · rw [if_neg hn] at h
    cases hl : decode_loop (n - 1) F ds with
    | none => rw [hl] at h; exact absurd h (by simp)
    | some r =>
      rw [hl] at h
      obtain ⟨h1, h2⟩ := decode_loop_static _ _ _ _ hl
      cases h0 : r.2[0]? with
      | none => simp only [h0] at h; exact absurd h (by simp)
      | some d =>
        simp only [h0, Option.some.injEq] at h
        subst h
        refine ⟨by rw [List.length_set]; exact h1, ?_⟩
        rw [map_static_set 0 r.2 d _ h0 (decode_last_static _ _)]
        exact h2

theorem decode_step_congr (F : Nat) (d d' : dim_t) (h : d.static = d'.static) :
    decode_step F d = decode_step F d' := by
  cases d; cases d'
  simp only [dim_t.static, Prod.mk.injEq] at h
  obtain ⟨h1, h2⟩ := h
  subst h1 h2
  rfl

theorem decode_last_congr (F : Nat) (d d' : dim_t) (h : d.static = d'.static) :
    decode_last F d = decode_last F d' := by
  cases d; cases d'
  simp only [dim_t.static, Prod.mk.injEq] at h
  obtain ⟨h1, h2⟩ := h
  subst h1 h2
  rfl

/-- On a table of `dim` descriptors the result of `decode` does not depend on
the current-index values present before the call. -/
theorem decode_congr (ds : List dim_t) : ∀ (ds' : List dim_t) (F : Nat),
    ds.map dim_t.static = ds'.map dim_t.static →
      decode F ds.length ds = decode F ds'.length ds' := by
  induction ds using List.reverseRecOn with
  | nil =>
    intro ds' F h
    have : ds' = [] := by simpa using h.symm
    rw [this]
  | append_singleton l d ih =>
    intro ds' F h
    have hlen : (l ++ [d]).length = ds'.length := by
      have := congrArg List.length h; simpa using this
    have hne : ds' ≠ [] := by
      intro h0; rw [h0] at hlen; simp at hlen
    obtain ⟨l', d', rfl⟩ : ∃ l' d', ds' = l' ++ [d'] :=
      ⟨ds'.dropLast, ds'.getLast hne, (List.dropLast_append_getLast hne).symm⟩
    simp only [List.map_append, List.map_cons, List.map_nil] at h
    have hl : l.length = l'.length := by simpa using hlen
    obtain ⟨h1, h2⟩ := List.append_inj h (by simp [hl])
    simp only [List.cons.injEq, and_true] at h2
    rw [List.length_append, List.length_append, List.length_singleton, List.length_singleton]
    by_cases hnil : l = []
    · subst hnil
      have : l' = [] := by simpa using hl.symm
      subst this
      simp only [List.nil_append, List.length_nil, zero_add]
      rw [decode_single, decode_single, decode_last_congr F d d' h2]
    · have hnil' : l' ≠ [] := by
        intro h0; rw [h0] at hl; simp at hl; exact hnil hl
      rw [decode_snoc _ _ _ hnil, decode_snoc _ _ _ hnil', decode_step_congr F d d' h2]
      have hs : d.stride = d'.stride := congrArg Prod.snd h2
      rw [hs, ih l' _ h1]

theorem decode_idempotent (F : Nat) (ds ds' : List dim_t)
    (h : decode F ds.length ds = some ds') : decode F ds.length ds' = some ds' := by
  obtain ⟨h1, h2⟩ := decode_static _ _ _ _ h
  have := decode_congr ds' ds F h2
  rw [h1] at this
  rw [this, h]

/-! ## decode of flat index 0 on a fresh table -/

theorem set_getElem_same (l : List dim_t) (i : Nat) (h : i < l.length) :
    l.set i (l.get ⟨i, h⟩) = l := by
  apply List.ext_getElem (by simp)
  intro n h1 h2
  rw [List.getElem_set]
  split
  · next heq => subst heq; rfl
  · rfl

theorem remap_zero (size : Int) (h : 0 ≤ size) : remap 0 size = 0 := by
  unfold remap int_sub int_mul int_add bool_to_int
  have : ¬ ((0 : Int) > size) := by omega
  simp only [this, decide_False, Bool.false_eq_true, if_false, zero_mul]
  rw [wrap_int_eq 0 (by omega) (by omega), sub_zero]
  exact wrap_int_eq 0 (by omega) (by omega)

theorem decode_step_zero (d : dim_t) (h0 : d.idx = 0) (hs : 0 ≤ d.size) :
    decode_step 0 d = (0, d) := by
  have hw : sz_to_int 0 = 0 := by
    unfold sz_to_int; exact wrap_int_eq 0 (by omega) (by omega)
  have hz : int_to_sz 0 = 0 := by
    unfold int_to_sz; rw [SIZE_MOD_eq]; rfl
  unfold decode_step
  simp only [Nat.zero_div, hw, hz, remap_zero _ hs]
  unfold sz_mul sz_sub
  simp only [zero_mul, Nat.zero_mod, le_refl, if_true, Nat.sub_zero]
  cases d
  simp only at h0
  subst h0
  rfl

theorem decode_last_zero (d : dim_t) (h0 : d.idx = 0) (hs : 0 ≤ d.size) :
    decode_last 0 d = d := by
  have hw : sz_to_int 0 = 0 := by
    unfold sz_to_int; exact wrap_int_eq 0 (by omega) (by omega)
  unfold decode_last
  simp only [hw, remap_zero _ hs]
  cases d
  simp only at h0
  subst h0
  rfl

theorem decode_loop_zero (ds : List dim_t) (hz : ∀ d ∈ ds, d.idx = 0 ∧ 0 ≤ d.size) :
    ∀ (p : Nat) (r : Nat × List dim_t), decode_loop p 0 ds = some r → r = (0, ds) := by
  intro p
  induction p with
  | zero =>
    intro r h
    rw [decode_loop, Option.some.injEq] at h
    exact h.symm
  | succ p ih =>
    intro r h
    rw [decode_loop_succ] at h
    cases hd : ds[p + 1]? with
    | none => rw [hd] at h; exact absurd h (by simp)
    | some d =>
      simp only [hd] at h
      by_cases hs : d.stride = 0
      · rw [if_pos hs] at h; exact absurd h (by simp)
      · rw [if_neg hs] at h
        obtain ⟨hlt, hget⟩ := List.getElem?_eq_some_iff.mp hd
        have hmem : d ∈ ds := hget ▸ List.getElem_mem hlt
        rw [decode_step_zero d (hz d hmem).1 (hz d hmem).2] at h
        simp only at h
        have hset : ds.set (p + 1) d = ds := by
          rw [← hget]; exact set_getElem_same _ _ hlt
        rw [hset] at h
        exact ih r h

theorem decode_zero (ds ds' : List dim_t) (n : Nat)
    (hz : ∀ d ∈ ds, d.idx = 0 ∧ 0 ≤ d.size) (h : decode 0 n ds = some ds') : ds' = ds := by
  unfold decode at h
  by_cases hn : n = 0
  · rw [if_pos hn] at h; exact absurd h (by simp)
  · rw [if_neg hn] at h
    cases hl : decode_loop (n - 1) 0 ds with
    | none => rw [hl] at h; exact absurd h (by simp)
    | some r =>
      rw [hl] at h
      have hr := decode_loop_zero ds hz _ _ hl
      subst hr
      simp only at h
      cases h0 : ds[0]? with
      | none => rw [h0] at h; exact absurd h (by simp)
      | some d =>
        simp only [h0, Option.some.injEq] at h
        obtain ⟨hlt, hget⟩ := List.getElem?_eq_some_iff.mp h0
        have hmem : d ∈ ds := hget ▸ List.getElem_mem hlt
        rw [decode_last_zero d (hz d hmem).1 (hz d hmem).2] at h
        rw [← h, ← hget]
        exact set_getElem_same _ _ hlt

theorem stride_table_fresh (axes : List Axis) (hwf : ∀ a ∈ axes, a.wf) :
    ∀ d ∈ stride_table axes, d.idx = 0 ∧ 0 ≤ d.size := by
  induction axes using List.reverseRecOn with
  | nil => intro d hd; simp [stride_table_nil] at hd
  | append_singleton l a ih =>
    intro d hd
    rw [stride_table_snoc, List.mem_append, List.mem_singleton] at hd
    rcases hd with hd | hd
    · exact ih (fun b hb => hwf b (by simp [hb])) d hd
    · subst hd
      exact ⟨rfl, (hwf a (by simp)).1⟩

/-! ## The lazily decoding cursor -/

theorem idx_with_cached (dec : Nat → Nat → List dim_t → Option (List dim_t))
    (c : multi_index) (k : Nat) (h : c.idx_ = c.last_) :
    multi_index.idx_with dec c k =
      match c.dims_[k]? with
      | none => none
      | some d => some (d.idx, c) := by
  unfold multi_index.idx_with
  rw [if_neg (by simp [h])]

theorem idx_with_stale (dec : Nat → Nat → List dim_t → Option (List dim_t))
    (c : multi_index) (k : Nat) (h : c.idx_ ≠ c.last_) :
    multi_index.idx_with dec c k =
      match dec c.idx_ c.dim_ c.dims_ with
      | none => none
      | some ds =>
        match ds[k]? with
        | none => none
        | some d => some (d.idx, { c with last_ := c.idx_, dims_ := ds }) := by
  unfold multi_index.idx_with
  rw [if_pos h]

/-- What a successful call of `idx` leaves: the same dimension count and flat
index, and either the untouched cursor or a cursor refreshed by `decode`. -/
theorem idx_result (c c' : multi_index) (k : Nat) (v : Int) (h : c.idx k = some (v, c')) :
    c'.dim_ = c.dim_ ∧ c'.idx_ = c.idx_ ∧ c'.last_ = c.idx_ ∧
    (c'.dims_[k]?).map dim_t.idx = some v ∧
    ((c.idx_ = c.last_ ∧ c' = c) ∨
      (c.idx_ ≠ c.last_ ∧ decode c.idx_ c.dim_ c.dims_ = some c'.dims_)) := by
  unfold multi_index.idx at h
  by_cases he : c.idx_ = c.last_
  · rw [idx_with_cached _ _ _ he] at h
    cases hd : c.dims_[k]? with
    | none => rw [hd] at h; exact absurd h (by simp)
    | some d =>
      simp only [hd, Option.some.injEq, Prod.mk.injEq] at h
      obtain ⟨h1, h2⟩ := h
      subst h2
      exact ⟨rfl, rfl, he.symm, by rw [hd, ← h1]; rfl, Or.inl ⟨he, rfl⟩⟩
  · rw [idx_with_stale _ _ _ he] at h
    cases hdec : decode c.idx_ c.dim_ c.dims_ with
    | none => rw [hdec] at h; exact absurd h (by simp)
    | some ds =>
      simp only [hdec] at h
      cases hd : ds[k]? with
      | none => rw [hd] at h; exact absurd h (by simp)
      | some d =>
        simp only [hd, Option.some.injEq, Prod.mk.injEq] at h
        obtain ⟨h1, h2⟩ := h
        subst h2
        exact ⟨rfl, rfl, rfl, by simp only [hd, ← h1]; rfl, Or.inr ⟨he, rfl⟩⟩

/-- The cache invariant of the reachable cursor states: the table has one
descriptor per axis and, whenever `decode` of the cache tag is defined, it is
the table the cursor holds. -/
theorem reachable_cache (axes : List Axis) (F0 : Nat) (hwf : ∀ a ∈ axes, a.wf)
    (c : multi_index) (hc : multi_index.Reachable axes F0 c) :
    c.dim_ = axes.length ∧ c.dims_.length = axes.length ∧
    ∀ ds, decode c.last_ c.dim_ c.dims_ = some ds → ds = c.dims_ := by
  induction hc with
  | make =>
    refine ⟨rfl, stride_table_length axes, ?_⟩
    intro ds h
    exact decode_zero _ _ _ (stride_table_fresh axes hwf) h
  | increment _ ih => exact ih
  | decrement _ ih => exact ih
  | @idx c c' k v _ hstep ih =>
    obtain ⟨h1, h2, h3, _, h5⟩ := idx_result c c' k v hstep
    rcases h5 with ⟨_, h5⟩ | ⟨_, h5⟩
    · subst h5; exact ih
    · have hlen : c.dim_ = c.dims_.length := by rw [ih.1, ih.2.1]
      rw [hlen] at h5
      obtain ⟨hl, _⟩ := decode_static _ _ _ _ h5
      refine ⟨h1.trans ih.1, hl.trans ih.2.1, ?_⟩
      intro ds hds
      have hid := decode_idempotent _ _ _ h5
      rw [h3, h1, hlen, hid] at hds
      exact (Option.some.inj hds).symm

/-! ## When decode is defined -/

/-- On a non-empty table of `dim` descriptors without a zero stride `decode`
returns, for every flat index. -/
theorem decode_defined (ds : List dim_t) :
    ds ≠ [] → (∀ d ∈ ds, d.stride ≠ 0) → ∀ F : Nat, ∃ ds', decode F ds.length ds = some ds' := by
  induction ds using List.reverseRecOn with
  | nil => intro h; exact absurd rfl h
  | append_singleton l d ih =>
    intro _ hs F
    rw [List.length_append, List.length_singleton]
    by_cases hl : l = []
    · subst hl
      exact ⟨_, decode_single F d⟩
    · rw [decode_snoc _ _ _ hl, if_neg (hs d (by simp))]
      obtain ⟨ds0, h0⟩ := ih hl (fun b hb => hs b (by simp [hb])) (decode_step F d).1
      exact ⟨_, by rw [h0]; rfl⟩

theorem reachable_static (axes : List Axis) (F0 : Nat) (c : multi_index)
    (hc : multi_index.Reachable axes F0 c) :
    c.dim_ = axes.length ∧ c.dims_.map dim_t.static = (stride_table axes).map dim_t.static := by
  induction hc with
  | make => exact ⟨rfl, rfl⟩
  | increment _ ih => exact ih
  | decrement _ ih => exact ih
  | @idx c c' k v _ hstep ih =>
    obtain ⟨h1, _, _, _, h5⟩ := idx_result c c' k v hstep
    rcases h5 with ⟨_, h5⟩ | ⟨_, h5⟩
    · subst h5; exact ih
    · exact ⟨h1.trans ih.1, (decode_static _ _ _ _ h5).2.trans ih.2⟩

/-! ## Claims -/

/-- C1 (round trip encode-after-decode): for every non-empty list of
well-formed axes (size a non-negative `int`, extent an `int`), with the stride
table made by the builder, and every flat index `F` below the number of cells
(the product of all extents, as the builder computes it in `std::size_t`),
`decode` returns and the spec's `encode` of the indices it wrote is `F`.
Extents of at least 1 need not be assumed: an extent of 0 leaves no `F`.
The number of cells is the exact product of the extents whenever that is
below `2 ^ 64`. -/
theorem encode_decode_roundtrip (axes : List Axis) (hne : axes ≠ [])
    (hwf : ∀ a ∈ axes, a.wf) (F : Nat) (hF : F < total_cells axes) :
    (∃ ds, decode F axes.length (stride_table axes) = some ds ∧ encode ds = (F : Int)) ∧
    (exact_cells axes < (SIZE_MOD : Int) → (total_cells axes : Int) = exact_cells axes) := by
  obtain ⟨ds, hd, _, he, _⟩ := decode_stride_table axes hne hwf F hF
  exact ⟨⟨ds, hd, he⟩, total_cells_exact axes hwf⟩

/-- Witness of C1: axis 0 of size 2 with flow bins, axis 1 of size 2 without,
flat index 5. -/
theorem encode_decode_roundtrip_witness :
    ([⟨2, true⟩, ⟨2, false⟩] : List Axis) ≠ [] ∧
    (∀ a ∈ ([⟨2, true⟩, ⟨2, false⟩] : List Axis), a.wf) ∧
    5 < total_cells [⟨2, true⟩, ⟨2, false⟩] ∧
    ∃ ds, decode 5 2 (stride_table [⟨2, true⟩, ⟨2, false⟩]) = some ds ∧ encode ds = 5 :=
  ⟨by decide, by decide, by decide,
    (encode_decode_roundtrip [⟨2, true⟩, ⟨2, false⟩] (by decide) (by decide) 5
      (by decide)).1⟩

/-- C3 (range of decoded indices): for every non-empty list of well-formed
axes with the builder's stride table and every flat index `F` below the number
of cells, `decode` returns a table of the same length in which the current
index of axis `k` lies in `[-1, size_k]` if axis `k` has flow bins and in
`[0, size_k)` if it has none. -/
theorem decode_index_range (axes : List Axis) (hne : axes ≠ [])
    (hwf : ∀ a ∈ axes, a.wf) (F : Nat) (hF : F < total_cells axes) :
    ∃ ds, decode F axes.length (stride_table axes) = some ds ∧
      ds.length = axes.length ∧
      ∀ (k : Nat) (a : Axis) (d : dim_t), axes[k]? = some a → ds[k]? = some d →
        (a.uoflow = true → -1 ≤ d.idx ∧ d.idx ≤ a.size) ∧
        (a.uoflow = false → 0 ≤ d.idx ∧ d.idx < a.size) := by
  obtain ⟨ds, hd, _, _, hv⟩ := decode_stride_table axes hne hwf F hF
  refine ⟨ds, hd, hv.length_eq.symm, ?_⟩
  intro k a d ha hdk
  obtain ⟨hk1, rfl⟩ := List.getElem?_eq_some_iff.mp ha
  obtain ⟨hk2, rfl⟩ := List.getElem?_eq_some_iff.mp hdk
  have h := (List.forall₂_iff_get.mp hv).2 k hk1 hk2
  simp only [List.get_eq_getElem] at h
  unfold Axis.valid_index at h
  constructor
  · intro hf; rw [if_pos hf] at h; exact h
  · intro hf; rw [if_neg (by simp [hf])] at h; exact h

/-- Witness of C3: axis 0 of size 2 with flow bins, axis 1 of size 2 without,
flat index 7. -/
theorem decode_index_range_witness :
    ([⟨2, true⟩, ⟨2, false⟩] : List Axis) ≠ [] ∧
    (∀ a ∈ ([⟨2, true⟩, ⟨2, false⟩] : List Axis), a.wf) ∧
    7 < total_cells [⟨2, true⟩, ⟨2, false⟩] ∧
    ∃ ds, decode 7 2 (stride_table [⟨2, true⟩, ⟨2, false⟩]) = some ds ∧
      ds.length = 2 ∧
      ∀ (k : Nat) (a : Axis) (d : dim_t),
        ([⟨2, true⟩, ⟨2, false⟩] : List Axis)[k]? = some a → ds[k]? = some d →
        (a.uoflow = true → -1 ≤ d.idx ∧ d.idx ≤ a.size) ∧
        (a.uoflow = false → 0 ≤ d.idx ∧ d.idx < a.size) :=
  ⟨by decide, by decide, by decide,
    decode_index_range [⟨2, true⟩, ⟨2, false⟩] (by decide) (by decide) 7 (by decide)⟩

/-- C2, amended (round trip decode-after-encode): for every non-empty list of
well-formed axes whose exact product of extents is below `2 ^ 64`, with the
builder's stride table, and every index tuple with `i_k` in `[-1, size_k]` on
an axis with flow bins and in `[0, size_k)` on one without, `decode` of the
spec's `encode` of the tuple returns the table holding exactly that tuple in
its current-index fields. -/
theorem decode_encode_roundtrip (axes : List Axis) (is : List Int) (hne : axes ≠ [])
    (hwf : ∀ a ∈ axes, a.wf) (hval : List.Forall₂ Axis.valid_index axes is)
    (hfit : exact_cells axes < (SIZE_MOD : Int)) :
    decode (encode (with_indices (stride_table axes) is)).toNat axes.length (stride_table axes) =
      some (with_indices (stride_table axes) is) ∧
    (with_indices (stride_table axes) is).map dim_t.idx = is := by
  have hlen : axes.length = is.length := hval.length_eq
  have h1 : (axes.zip is).map Prod.fst = axes := List.map_fst_zip _ _ (le_of_eq hlen)
  have h2 : (axes.zip is).map Prod.snd = is := List.map_snd_zip _ _ (le_of_eq hlen.symm)
  have hz : axes.zip is ≠ [] := by
    intro h; rw [h] at h1; exact hne h1.symm
  have hp : ∀ p ∈ axes.zip is, p.1.wf ∧ p.1.valid_index p.2 := by
    intro p hp
    refine ⟨hwf _ ?_, (List.forall₂_iff_zip.mp hval).2 hp⟩
    rw [← h1]; exact List.mem_map_of_mem _ hp
  have h := decode_encode_pairs (axes.zip is) hz hp (by rw [h1]; exact hfit)
  rw [h1, h2] at h
  refine ⟨h.2.2.2, ?_⟩
  apply List.ext_getElem
  · unfold with_indices; simp [stride_table_length, hlen]
  · intro n hn1 hn2
    unfold with_indices; simp

/-- Witness of C2, amended: axis 0 of size 2 with flow bins, axis 1 of size 2
without, index tuple `(-1, 1)`. -/
theorem decode_encode_roundtrip_witness :
    ([⟨2, true⟩, ⟨2, false⟩] : List Axis) ≠ [] ∧
    (∀ a ∈ ([⟨2, true⟩, ⟨2, false⟩] : List Axis), a.wf) ∧
    List.Forall₂ Axis.valid_index [⟨2, true⟩, ⟨2, false⟩] [-1, 1] ∧
    exact_cells [⟨2, true⟩, ⟨2, false⟩] < (SIZE_MOD : Int) ∧
    decode (encode (with_indices (stride_table [⟨2, true⟩, ⟨2, false⟩]) [-1, 1])).toNat 2
        (stride_table [⟨2, true⟩, ⟨2, false⟩]) =
      some (with_indices (stride_table [⟨2, true⟩, ⟨2, false⟩]) [-1, 1]) ∧
    (with_indices (stride_table [⟨2, true⟩, ⟨2, false⟩]) [-1, 1]).map dim_t.idx = [-1, 1] :=
  ⟨by decide, by decide,
    List.Forall₂.cons (by decide) (List.Forall₂.cons (by decide) List.Forall₂.nil),
    by decide,
    decode_encode_roundtrip [⟨2, true⟩, ⟨2, false⟩] [-1, 1] (by decide) (by decide)
      (List.Forall₂.cons (by decide) (List.Forall₂.cons (by decide) List.Forall₂.nil))
      (by decide)⟩

/-- Counterexample to C2 as stated: on four well-formed axes without flow bins
of sizes `2 ^ 30`, `2 ^ 30`, `17`, `2` the builder's strides are `1`, `2 ^ 30`,
`2 ^ 60` and again `2 ^ 60` (`17 * 2 ^ 60` reduced modulo `2 ^ 64`); the valid
tuple `(0, 0, 1, 0)` encodes to `2 ^ 60`, and `decode` of `2 ^ 60` writes
`(0, 0, 0, 1)`. -/
theorem decode_encode_overflow_counterexample :
    wide_axes ≠ [] ∧ (∀ a ∈ wide_axes, a.wf ∧ 1 ≤ a.shape) ∧
    List.Forall₂ Axis.valid_index wide_axes [0, 0, 1, 0] ∧
    (stride_table wide_axes).map dim_t.stride =
      [1, 1073741824, 1152921504606846976, 1152921504606846976] ∧
    encode (with_indices (stride_table wide_axes) [0, 0, 1, 0]) = 1152921504606846976 ∧
    decode (encode (with_indices (stride_table wide_axes) [0, 0, 1, 0])).toNat
        wide_axes.length (stride_table wide_axes) =
      some (with_indices (stride_table wide_axes) [0, 0, 0, 1]) ∧
    decode (encode (with_indices (stride_table wide_axes) [0, 0, 1, 0])).toNat
        wide_axes.length (stride_table wide_axes) ≠
      some (with_indices (stride_table wide_axes) [0, 0, 1, 0]) :=
  ⟨by decide, by decide,
    List.Forall₂.cons (by decide) (List.Forall₂.cons (by decide)
      (List.Forall₂.cons (by decide) (List.Forall₂.cons (by decide) List.Forall₂.nil))),
    by decide, by decide, by decide, by decide⟩

/-- C4, amended (placement of the flow cells on a single axis): for one axis
of size `s >= 1` with flow bins (extent `s + 2` an `int`, stride 1), `decode`
maps flat index `s` to axis-0 index `s` (overflow), flat index `s + 1` to
axis-0 index `-1` (underflow), and every flat index `F` in `[0, s)` to `F`. -/
theorem decode_flow_cells_single_axis (s : Nat) (hs : 1 ≤ s)
    (hwf : (⟨(s : Int), true⟩ : Axis).wf) :
    stride_table [⟨(s : Int), true⟩] = [⟨0, s, 1⟩] ∧
    decode s 1 (stride_table [⟨(s : Int), true⟩]) = some [⟨s, s, 1⟩] ∧
    decode (s + 1) 1 (stride_table [⟨(s : Int), true⟩]) = some [⟨-1, s, 1⟩] ∧
    ∀ F : Nat, F < s →
      decode F 1 (stride_table [⟨(s : Int), true⟩]) = some [⟨F, s, 1⟩] := by
  obtain ⟨_, h1⟩ := hwf
  unfold INT_MAX Axis.shape at h1
  simp only [if_true] at h1
  have ht : stride_table [⟨(s : Int), true⟩] = [⟨0, s, 1⟩] := rfl
  have hw : ∀ F : Nat, F ≤ s + 1 → sz_to_int F = (F : Int) := by
    intro F hF; unfold sz_to_int; apply wrap_int_eq <;> omega
  rw [ht]
  refine ⟨rfl, ?_, ?_, ?_⟩
  · rw [decode_single]; unfold decode_last
    simp only [hw s (by omega), remap_low (s : Int) s (by omega) (le_refl _) (by omega)]
  · rw [decode_single]; unfold decode_last
    simp only [hw (s + 1) (le_refl _), remap_high ((s + 1 : Nat) : Int) s (by push_cast; rfl)]
  · intro F hF
    rw [decode_single]; unfold decode_last
    simp only [hw F (by omega), remap_low (F : Int) s (by omega) (by omega) (by omega)]

/-- Witness of C4, amended: the spec's scenario, one axis of size 3 with flow
bins. -/
theorem decode_flow_cells_single_axis_witness :
    1 ≤ 3 ∧ (⟨((3 : Nat) : Int), true⟩ : Axis).wf ∧
    decode 3 1 (stride_table [⟨((3 : Nat) : Int), true⟩]) = some [⟨(3 : Nat), (3 : Nat), 1⟩] ∧
    decode (3 + 1) 1 (stride_table [⟨((3 : Nat) : Int), true⟩]) =
      some [⟨-1, (3 : Nat), 1⟩] :=
  ⟨by decide, by decide,
    (decode_flow_cells_single_axis 3 (by decide) (by decide)).2.1,
    (decode_flow_cells_single_axis 3 (by decide) (by decide)).2.2.1⟩

/-- Counterexample to C4 as stated: on one axis of size 3 with flow bins
`decode` writes index `3` for flat index 3, not `-1`, and index `-1` for flat
index 4, not `3`. -/
theorem decode_flow_cells_counterexample :
    decode 3 1 (stride_table [⟨3, true⟩]) = some [⟨3, 3, 1⟩] ∧
    decode 3 1 (stride_table [⟨3, true⟩]) ≠ some [⟨-1, 3, 1⟩] ∧
    decode 4 1 (stride_table [⟨3, true⟩]) = some [⟨-1, 3, 1⟩] ∧
    decode 4 1 (stride_table [⟨3, true⟩]) ≠ some [⟨3, 3, 1⟩] :=
  ⟨by decide, by decide, by decide, by decide⟩

/-- C5 (stride table builder): visiting the axes with `dim_visitor` started at
stride 1 gives one descriptor per axis in axis order; descriptor `k` has
current index 0, the size of axis `k`, and as stride the product of the
extents of axes `0..k-1` (a `std::size_t` product, so reduced modulo `2 ^ 64`);
the stride of axis 0 is 1, the stride of axis `k + 1` is the stride of axis
`k` times the extent of axis `k`, and for well-formed axes whose exact product
of extents up to `k` is below `2 ^ 64` the stride is that exact product. -/
theorem stride_table_spec (axes : List Axis) (k : Nat) (a : Axis) (hk : axes[k]? = some a) :
    (stride_table axes).length = axes.length ∧
    (stride_table axes)[k]? =
      some { idx := 0, size := a.size, stride := total_cells (axes.take k) } ∧
    total_cells (axes.take k) =
      ((axes.take k).map (fun b => int_to_sz b.shape)).prod % SIZE_MOD ∧
    total_cells (axes.take 0) = 1 ∧
    total_cells (axes.take (k + 1)) = sz_mul (total_cells (axes.take k)) (int_to_sz a.shape) ∧
    ((∀ b ∈ axes, b.wf) → exact_cells (axes.take k) < (SIZE_MOD : Int) →
      (total_cells (axes.take k) : Int) = exact_cells (axes.take k)) := by
  refine ⟨stride_table_length axes, stride_table_getElem? axes k a hk, total_cells_prod _,
    rfl, ?_, ?_⟩
  · obtain ⟨hlt, rfl⟩ := List.getElem?_eq_some_iff.mp hk
    rw [List.take_succ, List.getElem?_eq_getElem hlt]
    exact total_cells_snoc _ _
  · intro hwf hfit
    exact total_cells_exact _ (fun b hb => hwf b (List.mem_of_mem_take hb)) hfit

/-- Witness of C5: axis 0 of size 2 with flow bins (extent 4), axis 1 of size
2 without; the descriptor of axis 1 has stride 4. -/
theorem stride_table_spec_witness :
    ([⟨2, true⟩, ⟨2, false⟩] : List Axis)[1]? = some ⟨2, false⟩ ∧
    (stride_table [⟨2, true⟩, ⟨2, false⟩])[1]? = some { idx := 0, size := 2, stride := 4 } :=
  ⟨by decide, (stride_table_spec [⟨2, true⟩, ⟨2, false⟩] 1 ⟨2, false⟩ (by decide)).2.1⟩

/-- C6 (memoisation is transparent): in every cursor state reachable from
`multi_index(h, F0)` over well-formed axes by `increment`, `decrement` and
`idx` calls, and for every axis position `k < dim`: `decode` of the current
flat index is defined if the builder's table has no zero stride; whenever it
is defined, `idx(k)` returns its `k`-th component and
leaves the cache holding that flat index and that table; if the flat index
equals the cache tag, `idx(k)` returns the stored index without calling the
decoding function (the result is the same for every function put in its
place), which includes the cursor fresh at flat index 0; and if the flat index
differs from the cache tag, `idx(k)` calls it on the current flat index and
builds its result from what it returns. -/
theorem idx_memoisation_transparent (axes : List Axis) (F0 : Nat)
    (hwf : ∀ a ∈ axes, a.wf) (c : multi_index) (hc : multi_index.Reachable axes F0 c)
    (k : Nat) (hk : k < c.dim_) :
    ((∀ d ∈ stride_table axes, d.stride ≠ 0) →
      ∃ ds, decode c.idx_ c.dim_ c.dims_ = some ds) ∧
    (∀ ds, decode c.idx_ c.dim_ c.dims_ = some ds →
      ∃ d, ds[k]? = some d ∧
        c.idx k = some (d.idx, { c with last_ := c.idx_, dims_ := ds })) ∧
    (c.idx_ = c.last_ →
      ∃ d, c.dims_[k]? = some d ∧
        ∀ dec, multi_index.idx_with dec c k = some (d.idx, c)) ∧
    (c.idx_ ≠ c.last_ →
      ∀ dec, multi_index.idx_with dec c k =
        (dec c.idx_ c.dim_ c.dims_).bind (fun ds =>
          (ds[k]?).map (fun d => (d.idx, { c with last_ := c.idx_, dims_ := ds })))) := by
  obtain ⟨h1, h2, h3⟩ := reachable_cache axes F0 hwf c hc
  have hkl : k < c.dims_.length := by rw [h2, ← h1]; exact hk
  refine ⟨?_, ?_, ?_, ?_⟩
  · intro hs
    have hst := (reachable_static axes F0 c hc).2
    have hne : c.dims_ ≠ [] := by
      intro h0; rw [h0] at hkl; simp at hkl
    have hs' : ∀ d ∈ c.dims_, d.stride ≠ 0 := by
      intro d hd
      have hm : d.static ∈ (stride_table axes).map dim_t.static := by
        rw [← hst]; exact List.mem_map_of_mem _ hd
      obtain ⟨d0, hd0, he⟩ := List.mem_map.mp hm
      have : d0.stride = d.stride := congrArg Prod.snd he
      rw [← this]; exact hs d0 hd0
    have hdim : c.dim_ = c.dims_.length := by rw [h1, h2]
    rw [hdim]
    exact decode_defined c.dims_ hne hs' c.idx_
  · intro ds hds
    have hlen : ds.length = c.dims_.length := (decode_static _ _ _ _ hds).1
    have hkd : k < ds.length := by rw [hlen]; exact hkl
    refine ⟨ds[k], List.getElem?_eq_getElem hkd, ?_⟩
    unfold multi_index.idx
    by_cases he : c.idx_ = c.last_
    · rw [he] at hds
      have hds' := h3 ds hds
      subst hds'
      rw [idx_with_cached _ _ _ he, List.getElem?_eq_getElem hkl]
      simp only [Option.some.injEq, Prod.mk.injEq, true_and]
      cases c
      simp only at he
      subst he
      rfl
    · rw [idx_with_stale _ _ _ he, hds]
      simp only [List.getElem?_eq_getElem hkd]
  · intro he
    refine ⟨c.dims_[k], List.getElem?_eq_getElem hkl, ?_⟩
    intro dec
    rw [idx_with_cached _ _ _ he, List.getElem?_eq_getElem hkl]
  · intro he dec
    rw [idx_with_stale _ _ _ he]
    cases dec c.idx_ c.dim_ c.dims_ with
    | none => rfl
    | some ds =>
      simp only [Option.some_bind]
      cases ds[k]? <;> rfl

/-- Witness of C6: the cursor fresh at flat index 0 over axis 0 of size 2 with
flow bins and axis 1 of size 2 without, axis position 1. -/
theorem idx_memoisation_transparent_witness :
    (∀ a ∈ ([⟨2, true⟩, ⟨2, false⟩] : List Axis), a.wf) ∧
    1 < (multi_index.make [⟨2, true⟩, ⟨2, false⟩] 0).dim_ ∧
    decode 0 2 (stride_table [⟨2, true⟩, ⟨2, false⟩]) =
      some [⟨0, 2, 1⟩, ⟨0, 2, 4⟩] ∧
    ∃ d, ([⟨0, 2, 1⟩, ⟨0, 2, 4⟩] : List dim_t)[1]? = some d ∧
      (multi_index.make [⟨2, true⟩, ⟨2, false⟩] 0).idx 1 =
        some (d.idx, { multi_index.make [⟨2, true⟩, ⟨2, false⟩] 0 with
          last_ := 0, dims_ := [⟨0, 2, 1⟩, ⟨0, 2, 4⟩] }) :=
  ⟨by decide, by decide, by decide,
    (idx_memoisation_transparent [⟨2, true⟩, ⟨2, false⟩] 0 (by decide) _
      multi_index.Reachable.make 1 (by decide)).2.1 _ (by decide)⟩

/-- C7 (idempotence of the lazy decode): for every cursor state whose table
has `dim` descriptors and every axis position `k < dim`, after a call `idx(j)`
that returned, the flat index equals the cache tag and a call `idx(k)` returns
the stored index of axis `k` and leaves the state exactly as the first call
left it, without calling the decoding function (the result is the same for
every function put in its place).  The first call returns whenever `j < dim`
and either the cache is current or `decode` of the flat index is defined. -/
theorem idx_idempotent (c : multi_index) (j k : Nat) (hk : k < c.dim_)
    (hlen : c.dims_.length = c.dim_) :
    (∀ v c1, c.idx j = some (v, c1) →
      c1.idx_ = c1.last_ ∧
      ∃ d, c1.dims_[k]? = some d ∧ c1.idx k = some (d.idx, c1) ∧
        ∀ dec, multi_index.idx_with dec c1 k = some (d.idx, c1)) ∧
    (j < c.dim_ → (c.idx_ = c.last_ ∨ (decode c.idx_ c.dim_ c.dims_).isSome) →
      (c.idx j).isSome) := by
  constructor
  · intro v c1 h
    obtain ⟨h1, h2, h3, _, h5⟩ := idx_result c c1 j v h
    have hl1 : c1.dims_.length = c.dim_ := by
      rcases h5 with ⟨_, h5⟩ | ⟨_, h5⟩
      · rw [h5]; exact hlen
      · exact (decode_static _ _ _ _ h5).1.trans hlen
    have hkl : k < c1.dims_.length := by rw [hl1]; exact hk
    have he : c1.idx_ = c1.last_ := by rw [h2, h3]
    have hall : ∀ dec, multi_index.idx_with dec c1 k = some (c1.dims_[k].idx, c1) := by
      intro dec
      rw [idx_with_cached _ _ _ he, List.getElem?_eq_getElem hkl]
    exact ⟨he, c1.dims_[k], List.getElem?_eq_getElem hkl, hall decode, hall⟩
  · intro hj hor
    unfold multi_index.idx
    by_cases he : c.idx_ = c.last_
    · rw [idx_with_cached _ _ _ he, List.getElem?_eq_getElem (by rw [hlen]; exact hj)]
      rfl
    · rcases hor with hor | hor
      · exact absurd hor he
      · obtain ⟨ds, hds⟩ := Option.isSome_iff_exists.mp hor
        have hl : ds.length = c.dims_.length := (decode_static _ _ _ _ hds).1
        rw [idx_with_stale _ _ _ he, hds]
        simp only [List.getElem?_eq_getElem (by rw [hl, hlen]; exact hj : j < ds.length)]
        rfl

/-- Witness of C7: the cursor made at flat index 5 over axis 0 of size 2 with
flow bins and axis 1 of size 2 without; `idx(0)` decodes, then `idx(1)` reads
the cache. -/
theorem idx_idempotent_witness :
    1 < (multi_index.make [⟨2, true⟩, ⟨2, false⟩] 5).dim_ ∧
    (multi_index.make [⟨2, true⟩, ⟨2, false⟩] 5).dims_.length =
      (multi_index.make [⟨2, true⟩, ⟨2, false⟩] 5).dim_ ∧
    (multi_index.make [⟨2, true⟩, ⟨2, false⟩] 5).idx 0 =
      some (1, ⟨2, 5, 5, [⟨1, 2, 1⟩, ⟨1, 2, 4⟩]⟩) ∧
    ∃ d, (⟨2, 5, 5, [⟨1, 2, 1⟩, ⟨1, 2, 4⟩]⟩ : multi_index).dims_[1]? = some d ∧
      (⟨2, 5, 5, [⟨1, 2, 1⟩, ⟨1, 2, 4⟩]⟩ : multi_index).idx 1 =
        some (d.idx, ⟨2, 5, 5, [⟨1, 2, 1⟩, ⟨1, 2, 4⟩]⟩) ∧
      ∀ dec, multi_index.idx_with dec ⟨2, 5, 5, [⟨1, 2, 1⟩, ⟨1, 2, 4⟩]⟩ 1 =
        some (d.idx, ⟨2, 5, 5, [⟨1, 2, 1⟩, ⟨1, 2, 4⟩]⟩) :=
  ⟨by decide, by decide, by decide,
    ((idx_idempotent (multi_index.make [⟨2, true⟩, ⟨2, false⟩] 5) 0 1 (by decide)
      (by decide)).1 1 ⟨2, 5, 5, [⟨1, 2, 1⟩, ⟨1, 2, 4⟩]⟩ (by decide)).2⟩

/-- C8 (advance and retreat are inverse and touch only the flat index): for
every cursor state whose flat index is a `std::size_t` value, `decrement`
after `increment` and `increment` after `decrement` give back the whole
state; `increment` and `decrement` change the flat index by `+1` and `-1`
modulo `2 ^ 64` and leave the dimension count, the cache tag and every
descriptor unchanged. -/
theorem increment_decrement_inverse (c : multi_index) (h : c.idx_ < SIZE_MOD) :
    c.increment.decrement = c ∧ c.decrement.increment = c ∧
    c.increment.idx_ = (c.idx_ + 1) % SIZE_MOD ∧
    c.decrement.idx_ = (c.idx_ + SIZE_MOD - 1) % SIZE_MOD ∧
    c.increment.dim_ = c.dim_ ∧ c.increment.last_ = c.last_ ∧ c.increment.dims_ = c.dims_ ∧
    c.decrement.dim_ = c.dim_ ∧ c.decrement.last_ = c.last_ ∧ c.decrement.dims_ = c.dims_ := by
  have h1 : sz_sub ((c.idx_ + 1) % SIZE_MOD) 1 = c.idx_ := by
    unfold sz_sub; rw [SIZE_MOD_eq] at *; split <;> omega
  have h2 : (sz_sub c.idx_ 1 + 1) % SIZE_MOD = c.idx_ := by
    unfold sz_sub; rw [SIZE_MOD_eq] at *; split <;> omega
  have h3 : sz_sub c.idx_ 1 = (c.idx_ + SIZE_MOD - 1) % SIZE_MOD := by
    unfold sz_sub; rw [SIZE_MOD_eq] at *; split <;> omega
  refine ⟨?_, ?_, rfl, h3, rfl, rfl, rfl, rfl, rfl, rfl⟩
  · unfold multi_index.increment multi_index.decrement
    simp only [h1]
  · unfold multi_index.increment multi_index.decrement
    simp only [h2]

/-- Witness of C8: a cursor at the largest flat index, where `increment`
wraps around to 0. -/
theorem increment_decrement_inverse_witness :
    18446744073709551615 < SIZE_MOD ∧
    (⟨1, 18446744073709551615, 0, [⟨0, 3, 1⟩]⟩ : multi_index).increment.idx_ = 0 ∧
    (⟨1, 18446744073709551615, 0, [⟨0, 3, 1⟩]⟩ : multi_index).increment.decrement =
      ⟨1, 18446744073709551615, 0, [⟨0, 3, 1⟩]⟩ :=
  ⟨by decide, by decide,
    (increment_decrement_inverse ⟨1, 18446744073709551615, 0, [⟨0, 3, 1⟩]⟩ (by decide)).1⟩

/-- C9 (cursor equality): `equal(a, b)` is true if and only if `a` and `b`
refer to the same storage object and have the same flat index; cursors that
agree with `a` and `b` in these two members compare the same way whatever
their cache tags, descriptors, dimension counts and histogram references are;
and cursors over different storage objects are unequal. -/
theorem iterator_equal_iff (a b : iterator_over) :
    (a.equal b = true ↔ a.storage_ = b.storage_ ∧ a.base.idx_ = b.base.idx_) ∧
    (∀ a' b' : iterator_over, a'.storage_ = a.storage_ → a'.base.idx_ = a.base.idx_ →
      b'.storage_ = b.storage_ → b'.base.idx_ = b.base.idx_ → a'.equal b' = a.equal b) ∧
    (a.storage_ ≠ b.storage_ → a.equal b = false) := by
  refine ⟨?_, ?_, ?_⟩
  · unfold iterator_over.equal; simp
  · intro a' b' h1 h2 h3 h4
    unfold iterator_over.equal; rw [h1, h2, h3, h4]
  · intro h
    unfold iterator_over.equal; simp [h]

/-- Witness of C9: two cursors on storage 7 at flat index 4 with different
cache tags, tables and histograms, and a cursor on storage 8. -/
theorem iterator_equal_iff_witness :
    (⟨⟨1, 4, 0, [⟨0, 3, 1⟩]⟩, 1, 7⟩ : iterator_over).equal ⟨⟨1, 4, 4, [⟨-1, 3, 1⟩]⟩, 2, 7⟩ =
      (⟨⟨1, 4, 0, [⟨0, 3, 1⟩]⟩, 1, 7⟩ : iterator_over).equal ⟨⟨1, 4, 0, [⟨0, 3, 1⟩]⟩, 1, 7⟩ ∧
    (⟨⟨1, 4, 0, [⟨0, 3, 1⟩]⟩, 1, 7⟩ : iterator_over).equal ⟨⟨1, 4, 0, [⟨0, 3, 1⟩]⟩, 1, 8⟩ =
      false :=
  ⟨(iterator_equal_iff ⟨⟨1, 4, 0, [⟨0, 3, 1⟩]⟩, 1, 7⟩ ⟨⟨1, 4, 0, [⟨0, 3, 1⟩]⟩, 1, 7⟩).2.1
      ⟨⟨1, 4, 0, [⟨0, 3, 1⟩]⟩, 1, 7⟩ ⟨⟨1, 4, 4, [⟨-1, 3, 1⟩]⟩, 2, 7⟩ rfl rfl rfl rfl,
    (iterator_equal_iff ⟨⟨1, 4, 0, [⟨0, 3, 1⟩]⟩, 1, 7⟩ ⟨⟨1, 4, 0, [⟨0, 3, 1⟩]⟩, 1, 8⟩).2.2
      (by decide)⟩

/-- C10 (copies and equality): a copy of a cursor has the same dimension
count, flat index, cache tag, storage and histogram, and the same descriptors
when the table has `dim` of them; the copy compares equal to the original;
after exactly one of the two is incremented once, or decremented once, they
compare unequal; and a call of `idx` on either of two cursors does not change
the result of comparing them. -/
theorem copy_equal (c : iterator_over) :
    c.copy.base.dim_ = c.base.dim_ ∧ c.copy.base.idx_ = c.base.idx_ ∧
    c.copy.base.last_ = c.base.last_ ∧ c.copy.storage_ = c.storage_ ∧
    c.copy.histogram_ = c.histogram_ ∧
    (c.base.dims_.length = c.base.dim_ → c.copy = c) ∧
    c.copy.equal c = true ∧ c.equal c.copy = true ∧
    c.copy.increment.equal c = false ∧ c.copy.equal c.increment = false ∧
    c.copy.decrement.equal c = false ∧ c.copy.equal c.decrement = false ∧
    (∀ (a b : iterator_over) (k : Nat) (v : Int) (a' : iterator_over),
      a.idx k = some (v, a') → a'.equal b = a.equal b ∧ b.equal a' = b.equal a) := by
  have hi : ∀ F : Nat, (F + 1) % SIZE_MOD ≠ F := by
    intro F; rw [SIZE_MOD_eq]; omega
  have hd : ∀ F : Nat, sz_sub F 1 ≠ F := by
    intro F; unfold sz_sub; rw [SIZE_MOD_eq]; split <;> omega
  refine ⟨rfl, rfl, rfl, rfl, rfl, ?_, ?_, ?_, ?_, ?_, ?_, ?_, ?_⟩
  · intro hlen
    obtain ⟨⟨dim, idx, last, dims⟩, hist, stor⟩ := c
    simp only at hlen
    subst hlen
    unfold iterator_over.copy multi_index.copy
    simp only [List.take_length]
  · unfold iterator_over.equal; simp [iterator_over.copy, multi_index.copy]
  · unfold iterator_over.equal; simp [iterator_over.copy, multi_index.copy]
  · unfold iterator_over.equal
    simp [iterator_over.copy, multi_index.copy, iterator_over.increment,
      multi_index.increment, hi]
  · unfold iterator_over.equal
    simp only [iterator_over.copy, multi_index.copy, iterator_over.increment,
      multi_index.increment, decide_True, Bool.true_and, decide_eq_false_iff_not]
    exact fun h => hi _ h.symm
  · unfold iterator_over.equal
    simp [iterator_over.copy, multi_index.copy, iterator_over.decrement,
      multi_index.decrement, hd]
  · unfold iterator_over.equal
    simp only [iterator_over.copy, multi_index.copy, iterator_over.decrement,
      multi_index.decrement, decide_True, Bool.true_and, decide_eq_false_iff_not]
    exact fun h => hd _ h.symm
  · intro a b k v a' h
    unfold iterator_over.idx at h
    cases hb : a.base.idx k with
    | none => rw [hb] at h; exact absurd h (by simp)
    | some r =>
      simp only [hb, Option.some.injEq, Prod.mk.injEq] at h
      obtain ⟨_, h2⟩ := h
      obtain ⟨_, hidx, _⟩ := idx_result a.base r.2 k r.1 hb
      subst h2
      unfold iterator_over.equal
      simp only [hidx]
      exact ⟨trivial, trivial⟩

/-- Witness of C10: a cursor on storage 7 at flat index 4 whose cache is
stale; `idx(0)` rewrites its cache and the comparison with a cursor at flat
index 4 on the same storage stays true. -/
theorem copy_equal_witness :
    (⟨⟨1, 4, 0, [⟨0, 3, 1⟩]⟩, 1, 7⟩ : iterator_over).idx 0 =
      some (-1, ⟨⟨1, 4, 4, [⟨-1, 3, 1⟩]⟩, 1, 7⟩) ∧
    ((⟨⟨1, 4, 4, [⟨-1, 3, 1⟩]⟩, 1, 7⟩ : iterator_over).equal ⟨⟨1, 4, 0, [⟨0, 3, 1⟩]⟩, 1, 7⟩ =
        (⟨⟨1, 4, 0, [⟨0, 3, 1⟩]⟩, 1, 7⟩ : iterator_over).equal ⟨⟨1, 4, 0, [⟨0, 3, 1⟩]⟩, 1, 7⟩ ∧
      (⟨⟨1, 4, 0, [⟨0, 3, 1⟩]⟩, 1, 7⟩ : iterator_over).equal ⟨⟨1, 4, 4, [⟨-1, 3, 1⟩]⟩, 1, 7⟩ =
        (⟨⟨1, 4, 0, [⟨0, 3, 1⟩]⟩, 1, 7⟩ : iterator_over).equal
          ⟨⟨1, 4, 0, [⟨0, 3, 1⟩]⟩, 1, 7⟩) :=
  ⟨by decide,
    (copy_equal ⟨⟨1, 4, 0, [⟨0, 3, 1⟩]⟩, 1, 7⟩).2.2.2.2.2.2.2.2.2.2.2.2
      ⟨⟨1, 4, 0, [⟨0, 3, 1⟩]⟩, 1, 7⟩ ⟨⟨1, 4, 0, [⟨0, 3, 1⟩]⟩, 1, 7⟩ 0 (-1)
      ⟨⟨1, 4, 4, [⟨-1, 3, 1⟩]⟩, 1, 7⟩ (by decide)⟩

/-! ## Traversal -/

theorem increment_times_spec (j : Nat) : ∀ a : iterator_over, a.base.idx_ + j < SIZE_MOD →
    (a.increment_times j).base.idx_ = a.base.idx_ + j ∧
    (a.increment_times j).storage_ = a.storage_ ∧
    (a.increment_times j).histogram_ = a.histogram_ ∧
    (a.increment_times j).base.dim_ = a.base.dim_ ∧
    (a.increment_times j).base.last_ = a.base.last_ ∧
    (a.increment_times j).base.dims_ = a.base.dims_ := by
  induction j with
  | zero => intro a _; exact ⟨rfl, rfl, rfl, rfl, rfl, rfl⟩
  | succ j ih =>
    intro a h
    have h1 : a.increment.base.idx_ = a.base.idx_ + 1 := by
      show (a.base.idx_ + 1) % SIZE_MOD = a.base.idx_ + 1
      exact Nat.mod_eq_of_lt (by omega)
    have h2 := ih a.increment (by rw [h1]; omega)
    rw [h1] at h2
    show (a.increment.increment_times j).base.idx_ = _ ∧ _
    obtain ⟨g1, g2, g3, g4, g5, g6⟩ := h2
    exact ⟨by rw [g1]; omega, g2, g3, g4, g5, g6⟩
/-! ## Bins and dereference -/

/-- In a reachable state `idx(k)` returns the `k`-th component of `decode` of
the current flat index, whenever that is defined. -/
theorem reachable_idx (axes : List Axis) (F0 : Nat) (hwf : ∀ a ∈ axes, a.wf)
    (c : multi_index) (hc : multi_index.Reachable axes F0 c) (k : Nat) (hk : k < c.dim_)
    (ds : List dim_t) (hds : decode c.idx_ c.dim_ c.dims_ = some ds) :
    ∃ d, ds[k]? = some d ∧
      c.idx k = some (d.idx, { c with last_ := c.idx_, dims_ := ds }) := by
  obtain ⟨h1, h2, h3⟩ := reachable_cache axes F0 hwf c hc
  have hkl : k < c.dims_.length := by rw [h2, ← h1]; exact hk
  have hlen : ds.length = c.dims_.length := (decode_static _ _ _ _ hds).1
  have hkd : k < ds.length := by rw [hlen]; exact hkl
  refine ⟨ds[k], List.getElem?_eq_getElem hkd, ?_⟩
  unfold multi_index.idx
  by_cases he : c.idx_ = c.last_
  · rw [he] at hds
    have hds' := h3 ds hds
    subst hds'
    rw [idx_with_cached _ _ _ he, List.getElem?_eq_getElem hkl]
    simp only [Option.some.injEq, Prod.mk.injEq, true_and]
    cases c
    simp only at he
    subst he
    rfl
  · rw [idx_with_stale _ _ _ he, hds]
    simp only [List.getElem?_eq_getElem hkd]

/-- In a reachable state over a non-empty list of well-formed axes `decode`
of a flat index below the number of cells is defined. -/
theorem reachable_decode_defined (axes : List Axis) (F0 : Nat) (hne : axes ≠ [])
    (hwf : ∀ a ∈ axes, a.wf) (c : multi_index) (hc : multi_index.Reachable axes F0 c)
    (F : Nat) (hF : F < total_cells axes) :
    ∃ ds, decode F c.dim_ c.dims_ = some ds ∧
      List.Forall₂ (fun a d => a.valid_index d.idx) axes ds := by
  obtain ⟨h1, h2, _⟩ := reachable_cache axes F0 hwf c hc
  obtain ⟨_, hst⟩ := reachable_static axes F0 c hc
  obtain ⟨ds, hd, _, _, hv⟩ := decode_stride_table axes hne hwf F hF
  refine ⟨ds, ?_, hv⟩
  have := decode_congr c.dims_ (stride_table axes) F hst
  rw [h2, stride_table_length] at this
  rw [h1, this, hd]
/-! ## The uniform loop -/

theorem decode_uniform_loop_succ (n idx : Nat) (ds : List dim_t) :
    decode_uniform_loop (n + 1) idx ds =
      match ds[n]? with
      | none => none
      | some d =>
        if d.stride = 0 then none
        else decode_uniform_loop n (decode_step idx d).1 (ds.set n (decode_step idx d).2) := by
  rw [decode_uniform_loop]

/-- The uniform loop on positions `p, ..., 0` is the loop of `decode` on
positions `p, ..., 1` followed by the loop body on position 0. -/
theorem decode_uniform_loop_eq (p : Nat) : ∀ (idx : Nat) (ds : List dim_t),
    decode_uniform_loop (p + 1) idx ds =
      match decode_loop p idx ds with
      | none => none
      | some r =>
        match r.2[0]? with
        | none => none
        | some d =>
          if d.stride = 0 then none
          else some ((decode_step r.1 d).1, r.2.set 0 (decode_step r.1 d).2) := by
  induction p with
  | zero =>
    intro idx ds
    rw [decode_uniform_loop_succ, decode_loop]
    simp only
    cases ds[0]? with
    | none => rfl
    | some d =>
      simp only
      by_cases hs : d.stride = 0
      · rw [if_pos hs, if_pos hs]
      · rw [if_neg hs, if_neg hs, decode_uniform_loop]
  | succ p ih =>
    intro idx ds
    rw [decode_uniform_loop_succ, decode_loop_succ]
    cases ds[p + 1]? with
    | none => rfl
    | some d =>
      simp only
      by_cases hs : d.stride = 0
      · rw [if_pos hs, if_pos hs]
      · rw [if_neg hs, if_neg hs, ih]

theorem decode_step_stride_one (r : Nat) (d : dim_t) (h : d.stride = 1) :
    (decode_step r d).2 = decode_last r d := by
  unfold decode_step decode_last
  simp only [h, Nat.div_one]

theorem decode_eq_uniform (F dim : Nat) (ds : List dim_t)
    (h0 : ∀ d, ds[0]? = some d → d.stride = 1) :
    decode F dim ds = decode_uniform F dim ds := by
  unfold decode decode_uniform
  by_cases hd : dim = 0
  · rw [if_pos hd, if_pos hd]
  · rw [if_neg hd, if_neg hd]
    obtain ⟨p, rfl⟩ := Nat.exists_eq_succ_of_ne_zero hd
    rw [Nat.succ_eq_add_one, Nat.add_sub_cancel, decode_uniform_loop_eq]
    cases hl : decode_loop p F ds with
    | none => rfl
    | some r =>
      simp only
      obtain ⟨hlen, hst⟩ := decode_loop_static _ _ _ _ hl
      cases hr : r.2[0]? with
      | none => rfl
      | some d =>
        simp only
        obtain ⟨hlt, hget⟩ := List.getElem?_eq_some_iff.mp hr
        have hlt' : 0 < ds.length := by rw [← hlen]; exact hlt
        have hstat : d.static = (ds.get ⟨0, hlt'⟩).static := by
          have h1 : (r.2.map dim_t.static)[0]? = (ds.map dim_t.static)[0]? := by rw [hst]
          simp only [List.getElem?_map, hr, List.getElem?_eq_getElem hlt', Option.map_some',
            Option.some.injEq] at h1
          exact h1
        have hs1 : d.stride = 1 := by
          have : d.stride = (ds.get ⟨0, hlt'⟩).stride := congrArg Prod.snd hstat
          rw [this]
          exact h0 _ (List.getElem?_eq_getElem hlt')
        rw [if_neg (by rw [hs1]; exact one_ne_zero), decode_step_stride_one _ _ hs1]
/-! ## Distances of flat indices -/

theorem encode_cons (x : dim_t) (l : List dim_t) :
    encode (x :: l) = raw_index x.idx x.size * (x.stride : Int) + encode l := by
  unfold encode; simp

theorem dim_t_ext (x y : dim_t) (h1 : x.static = y.static) (h2 : x.idx = y.idx) : x = y := by
  cases x; cases y
  simp only [dim_t.static, Prod.mk.injEq] at h1
  simp only at h2
  obtain ⟨h3, h4⟩ := h1
  subst h2 h3 h4
  rfl

theorem eq_of_static_idx (l1 : List dim_t) : ∀ l2 : List dim_t,
    l1.map dim_t.static = l2.map dim_t.static →
    (∀ j : Nat, (l1[j]?).map dim_t.idx = (l2[j]?).map dim_t.idx) → l1 = l2 := by
  induction l1 with
  | nil =>
    intro l2 h _
    have : l2 = [] := by simpa using h.symm
    rw [this]
  | cons x l1 ih =>
    intro l2 h hi
    cases l2 with
    | nil => simp at h
    | cons y l2 =>
      simp only [List.map_cons, List.cons.injEq] at h
      have h0 := hi 0
      simp only [List.getElem?_cons_zero, Option.map_some', Option.some.injEq] at h0
      rw [dim_t_ext x y h.1 h0, ih l2 h.2 (fun j => by simpa using hi (j + 1))]

/-- Two tables with the same sizes and strides whose current indices agree
off position `k` encode to flat indices whose difference is the difference
of the raw positions at `k` times the stride at `k`. -/
theorem encode_diff (l1 : List dim_t) : ∀ (l2 : List dim_t) (k : Nat) (d1 d2 : dim_t),
    l1.map dim_t.static = l2.map dim_t.static →
    l1[k]? = some d1 → l2[k]? = some d2 →
    (∀ j : Nat, j ≠ k → (l1[j]?).map dim_t.idx = (l2[j]?).map dim_t.idx) →
    encode l2 - encode l1 =
      (raw_index d2.idx d2.size - raw_index d1.idx d1.size) * (d1.stride : Int) := by
  induction l1 with
  | nil => intro l2 k d1 d2 _ h1; simp at h1
  | cons x l1 ih =>
    intro l2 k d1 d2 h h1 h2 hi
    cases l2 with
    | nil => simp at h
    | cons y l2 =>
      simp only [List.map_cons, List.cons.injEq] at h
      rw [encode_cons, encode_cons]
      cases k with
      | zero =>
        simp only [List.getElem?_cons_zero, Option.some.injEq] at h1 h2
        subst h1 h2
        have ht : l1 = l2 := eq_of_static_idx l1 l2 h.2 (fun j => by
          simpa using hi (j + 1) (by omega))
        have hs : x.stride = y.stride := congrArg Prod.snd h.1
        rw [ht, hs]; ring
      | succ k =>
        simp only [List.getElem?_cons_succ] at h1 h2
        have h0 := hi 0 (by omega)
        simp only [List.getElem?_cons_zero, Option.map_some', Option.some.injEq] at h0
        have hxy : x = y := dim_t_ext x y h.1 h0
        have := ih l2 k d1 d2 h.2 h1 h2 (fun j hj => by
          simpa using hi (j + 1) (by omega))
        rw [hxy]; linarith

theorem static_getElem? (l1 l2 : List dim_t) (k : Nat) (d1 d2 : dim_t)
    (h : l1.map dim_t.static = l2.map dim_t.static) (h1 : l1[k]? = some d1)
    (h2 : l2[k]? = some d2) : d1.size = d2.size ∧ d1.stride = d2.stride := by
  have hk : (l1.map dim_t.static)[k]? = (l2.map dim_t.static)[k]? := by rw [h]
  simp only [List.getElem?_map, h1, h2, Option.map_some', Option.some.injEq] at hk
  exact ⟨congrArg Prod.fst hk, congrArg Prod.snd hk⟩

theorem forall₂_getElem? (axes : List Axis) (ds : List dim_t)
    (h : List.Forall₂ (fun a d => a.valid_index d.idx) axes ds) (k : Nat) (a : Axis)
    (d : dim_t) (ha : axes[k]? = some a) (hd : ds[k]? = some d) : a.valid_index d.idx := by
  obtain ⟨hk1, rfl⟩ := List.getElem?_eq_some_iff.mp ha
  obtain ⟨hk2, rfl⟩ := List.getElem?_eq_some_iff.mp hd
  have := (List.forall₂_iff_get.mp h).2 k hk1 hk2
  simpa using this
/-! ## decode as mixed-radix digits -/

theorem nat_prod_exact (l : List Axis) (hwf : ∀ a ∈ l, a.wf) :
    (((l.map (fun a => int_to_sz a.shape)).prod : Nat) : Int) = exact_cells l := by
  unfold exact_cells
  induction l with
  | nil => rfl
  | cons a l ih =>
    simp only [List.map_cons, List.prod_cons, Nat.cast_mul]
    rw [ih (fun b hb => hwf b (by simp [hb])), (int_to_sz_shape a (hwf a (by simp))).1]

/-- Without overflow the number of cells is the stride of axis `k` times the
extent of axis `k` times a further factor. -/
theorem total_cells_split (l : List Axis) (hwf : ∀ a ∈ l, a.wf)
    (hfit : exact_cells l < (SIZE_MOD : Int)) (hpos : total_cells l ≠ 0) (k : Nat) (a : Axis)
    (hk : l[k]? = some a) :
    ∃ m, total_cells l = total_cells (l.take k) * (int_to_sz a.shape * m) := by
  obtain ⟨hlt, hget⟩ := List.getElem?_eq_some_iff.mp hk
  have hP : (l.map (fun a => int_to_sz a.shape)).prod < SIZE_MOD := by
    have := nat_prod_exact l hwf
    rw [← this] at hfit
    exact_mod_cast hfit
  have hT : total_cells l = (l.map (fun a => int_to_sz a.shape)).prod := by
    rw [total_cells_prod, Nat.mod_eq_of_lt hP]
  have hsplit : l = l.take k ++ a :: l.drop (k + 1) := by
    rw [← hget, ← List.drop_eq_getElem_cons hlt, List.take_append_drop]
  have hprod : (l.map (fun a => int_to_sz a.shape)).prod =
      ((l.take k).map (fun a => int_to_sz a.shape)).prod *
        (int_to_sz a.shape * ((l.drop (k + 1)).map (fun a => int_to_sz a.shape)).prod) := by
    conv_lhs => rw [hsplit]
    simp only [List.map_append, List.map_cons, List.prod_append, List.prod_cons]
  have hne : (l.map (fun a => int_to_sz a.shape)).prod ≠ 0 := by rw [← hT]; exact hpos
  rw [hprod] at hne
  have h1 : ((l.take k).map (fun a => int_to_sz a.shape)).prod ≠ 0 := by
    intro h0; rw [h0, Nat.zero_mul] at hne; exact hne rfl
  have h2 : int_to_sz a.shape * ((l.drop (k + 1)).map (fun a => int_to_sz a.shape)).prod ≠ 0 := by
    intro h0; rw [h0, Nat.mul_zero] at hne; exact hne rfl
  have hle : ((l.take k).map (fun a => int_to_sz a.shape)).prod ≤
      (l.map (fun a => int_to_sz a.shape)).prod := by
    rw [hprod]; exact Nat.le_mul_of_pos_right _ (Nat.pos_of_ne_zero h2)
  have hTk : total_cells (l.take k) = ((l.take k).map (fun a => int_to_sz a.shape)).prod := by
    rw [total_cells_prod, Nat.mod_eq_of_lt (lt_of_le_of_lt hle hP)]
  exact ⟨_, by rw [hT, hTk, hprod]⟩

/-- Without overflow the index `decode` writes for axis `k` is the fold of the
digit `(F / stride_k) mod extent_k`. -/
theorem decode_mixed_radix (axes : List Axis) :
    axes ≠ [] → (∀ a ∈ axes, a.wf) → exact_cells axes < (SIZE_MOD : Int) →
    ∀ F : Nat, F < total_cells axes →
    ∃ ds, decode F axes.length (stride_table axes) = some ds ∧ ds.length = axes.length ∧
      ∀ (k : Nat) (a : Axis) (d : dim_t), axes[k]? = some a → ds[k]? = some d →
        d.idx = remap (((F / total_cells (axes.take k)) % int_to_sz a.shape : Nat) : Int)
          a.size := by
  induction axes using List.reverseRecOn with
  | nil => intro h; exact absurd rfl h
  | append_singleton l b ih =>
    intro _ hwf hfit F hF
    have hwb : b.wf := hwf b (by simp)
    have hwl : ∀ x ∈ l, x.wf := fun x hx => hwf x (by simp [hx])
    obtain ⟨hsh, hsh0, hsh1⟩ := int_to_sz_shape b hwb
    rw [total_cells_snoc] at hF
    have hFM : F < SIZE_MOD := lt_trans hF (Nat.mod_lt _ (by rw [SIZE_MOD_eq]; omega))
    have hFp : F < total_cells l * int_to_sz b.shape :=
      lt_of_lt_of_le hF (Nat.mod_le _ _)
    have hT : total_cells l ≠ 0 := by
      intro h0; rw [h0, zero_mul] at hFp; omega
    have he : int_to_sz b.shape ≠ 0 := by
      intro h0; rw [h0, mul_zero] at hFp; omega
    have hqlt : F / total_cells l < int_to_sz b.shape := Nat.div_lt_of_lt_mul hFp
    rw [stride_table_snoc, List.length_append, List.length_singleton]
    by_cases hl : l = []
    · subst hl
      simp only [stride_table_nil, List.nil_append, List.length_nil, zero_add]
      rw [decode_single]
      rw [total_cells_nil, one_mul] at hFp
      have hw : sz_to_int F = (F : Int) := by
        unfold sz_to_int; apply wrap_int_eq <;> omega
      refine ⟨_, rfl, rfl, ?_⟩
      intro k a d ha hd
      have hk0 : k = 0 := by
        have := (List.getElem?_eq_some_iff.mp ha).1
        simpa using this
      subst hk0
      simp only [List.getElem?_cons_zero, Option.some.injEq] at ha hd
      subst ha hd
      simp only [decode_last, hw, List.take_zero, total_cells_nil, Nat.div_one,
        Nat.mod_eq_of_lt hFp]
    · have hfitl : exact_cells l < (SIZE_MOD : Int) := by
        rw [exact_cells_snoc] at hfit
        have h0 : 0 ≤ exact_cells l := by
          rw [← nat_prod_exact l hwl]; exact Int.natCast_nonneg _
        have h1 : (1 : Int) ≤ b.shape := by
          have : (0 : Int) < ((int_to_sz b.shape : Nat) : Int) := by
            exact_mod_cast Nat.pos_of_ne_zero he
          omega
        calc exact_cells l = exact_cells l * 1 := (mul_one _).symm
          _ ≤ exact_cells l * b.shape := mul_le_mul_of_nonneg_left h1 h0
          _ < _ := hfit
      have hrlt : F % total_cells l < total_cells l := Nat.mod_lt _ (Nat.pos_of_ne_zero hT)
      obtain ⟨ds0, hd0, hlen0, hdig⟩ := ih hl hwl hfitl _ hrlt
      have hlen : l.length = (stride_table l).length := (stride_table_length l).symm
      rw [hlen, decode_snoc _ _ _ (by
        intro h; rw [h] at hlen; simp at hlen; exact hl hlen)]
      simp only [hT, if_false]
      rw [decode_step_eq _ _ hFM (by simp only; omega)]
      simp only
      rw [← hlen, hd0]
      refine ⟨_, rfl, by simp [hlen0], ?_⟩
      intro k a d ha hd
      by_cases hk : k < l.length
      · rw [List.getElem?_append_left hk] at ha
        rw [List.getElem?_append_left (by rw [hlen0]; exact hk)] at hd
        rw [hdig k a d ha hd, List.take_append_of_le_length (le_of_lt hk)]
        obtain ⟨m, hm⟩ := total_cells_split l hwl hfitl hT k a ha
        have : F % total_cells l / total_cells (l.take k) % int_to_sz a.shape =
            F / total_cells (l.take k) % int_to_sz a.shape := by
          rw [hm, Nat.mod_mul_right_div_self, Nat.mod_mul_right_mod]
        rw [this]
      · have hk2 : k = l.length := by
          have := (List.getElem?_eq_some_iff.mp ha).1
          simp at this; omega
        subst hk2
        rw [List.getElem?_append_right (le_refl _)] at ha
        rw [List.getElem?_append_right (by rw [hlen0]), hlen0] at hd
        simp only [Nat.sub_self, List.getElem?_cons_zero, Option.some.injEq] at ha hd
        subst ha hd
        simp only [List.take_left', Nat.mod_eq_of_lt hqlt]

theorem remap_eq_fold_ref (a : Axis) (h : a.wf) (q : Nat) (hq : (q : Int) < a.shape) :
    remap q a.size = fold_ref a.size q := by
  obtain ⟨h0, h1⟩ := h
  unfold INT_MAX at h1
  unfold Axis.shape at hq h1
  unfold fold_ref
  by_cases hle : (q : Int) ≤ a.size
  · rw [remap_low _ _ (by omega) hle (by split at h1 <;> omega), if_neg (by omega)]
  · have hf : a.uoflow = true := by
      by_contra hf
      simp only [hf, Bool.false_eq_true, if_false] at hq
      omega
    simp only [hf, if_true] at hq
    rw [remap_high _ _ (by omega), if_pos (by omega)]
    omega

/-- Without overflow the index `decode` writes for axis `k` is the reference
fold of `(F / stride_k) mod extent_k`, in exact integer arithmetic. -/
theorem decode_fold_ref (axes : List Axis) (hne : axes ≠ []) (hwf : ∀ a ∈ axes, a.wf)
    (hfit : exact_cells axes < (SIZE_MOD : Int)) (F : Nat) (hF : F < total_cells axes) :
    ∃ ds, decode F axes.length (stride_table axes) = some ds ∧ ds.length = axes.length ∧
      ∀ (k : Nat) (a : Axis) (d dk : dim_t), axes[k]? = some a → ds[k]? = some d →
        (stride_table axes)[k]? = some dk →
        0 ≤ ((F : Int) / (dk.stride : Int)) % a.shape ∧
        ((F : Int) / (dk.stride : Int)) % a.shape < a.shape ∧
        d.idx = fold_ref a.size (((F : Int) / (dk.stride : Int)) % a.shape) := by
  obtain ⟨ds, hd, hlen, hdig⟩ := decode_mixed_radix axes hne hwf hfit F hF
  refine ⟨ds, hd, hlen, ?_⟩
  intro k a d dk ha hdk hst
  have hwa : a.wf := hwf a (List.getElem?_mem ha)
  obtain ⟨hsh, hsh0, _⟩ := int_to_sz_shape a hwa
  have hpos : total_cells axes ≠ 0 := by omega
  obtain ⟨m, hm⟩ := total_cells_split axes hwf hfit hpos k a ha
  have he : int_to_sz a.shape ≠ 0 := by
    intro h0; rw [h0, Nat.zero_mul, Nat.mul_zero] at hm; exact hpos hm
  have hs := stride_table_getElem? axes k a ha
  rw [hst, Option.some.injEq] at hs
  have hstr : dk.stride = total_cells (axes.take k) := by rw [hs]
  have hq : F / total_cells (axes.take k) % int_to_sz a.shape < int_to_sz a.shape :=
    Nat.mod_lt _ (Nat.pos_of_ne_zero he)
  have hcast : ((F / total_cells (axes.take k) % int_to_sz a.shape : Nat) : Int) =
      ((F : Int) / (dk.stride : Int)) % a.shape := by
    rw [hstr]; push_cast; rw [hsh]
  have hqi : ((F / total_cells (axes.take k) % int_to_sz a.shape : Nat) : Int) < a.shape := by
    have h1 : ((F / total_cells (axes.take k) % int_to_sz a.shape : Nat) : Int) <
        ((int_to_sz a.shape : Nat) : Int) := by exact_mod_cast hq
    rw [hsh] at h1; exact h1
  rw [← hcast]
  refine ⟨Int.natCast_nonneg _, hqi, ?_⟩
  rw [hdig k a d ha hdk]
  exact remap_eq_fold_ref a hwa _ hqi

/-- C11 (full traversal): for every histogram, storage and cell count
`n < 2 ^ 64`, starting from the cursor constructed at flat index 0, the cursor
stands at flat index `j` after `j <= n` increments, so the flat indices it
stands at before the increments number `0, ..., n - 1` are `0, 1, ..., n - 1`,
strictly increasing, each once; it compares unequal to a cursor constructed
on its own at flat index `n` over the same storage after fewer than `n`
increments and equal to it after exactly `n`. -/
theorem full_traversal (h : Nat) (axes : List Axis) (s : Nat) (n : Nat) (hn : n < SIZE_MOD) :
    (∀ j, j ≤ n → ((iterator_over.make h axes s 0).increment_times j).base.idx_ = j) ∧
    (List.range n).map
        (fun j => ((iterator_over.make h axes s 0).increment_times j).base.idx_) =
      List.range n ∧
    List.Pairwise (fun x y => x < y) ((List.range n).map
        (fun j => ((iterator_over.make h axes s 0).increment_times j).base.idx_)) ∧
    (∀ (h' : Nat) (axes' : List Axis) (j : Nat), j < n →
      ((iterator_over.make h axes s 0).increment_times j).equal
        (iterator_over.make h' axes' s n) = false) ∧
    (∀ (h' : Nat) (axes' : List Axis),
      ((iterator_over.make h axes s 0).increment_times n).equal
        (iterator_over.make h' axes' s n) = true) := by
  have hidx : ∀ j, j ≤ n →
      ((iterator_over.make h axes s 0).increment_times j).base.idx_ = j ∧
      ((iterator_over.make h axes s 0).increment_times j).storage_ = s := by
    intro j hj
    have h0 : (iterator_over.make h axes s 0).base.idx_ = 0 := rfl
    obtain ⟨g1, g2, _⟩ := increment_times_spec j (iterator_over.make h axes s 0)
      (by rw [h0]; omega)
    rw [h0, Nat.zero_add] at g1
    exact ⟨g1, g2⟩
  have hmap : (List.range n).map
        (fun j => ((iterator_over.make h axes s 0).increment_times j).base.idx_) =
      List.range n := by
    conv_rhs => rw [← List.map_id (List.range n)]
    apply List.map_congr_left
    intro j hj
    exact (hidx j (le_of_lt (List.mem_range.mp hj))).1
  refine ⟨fun j hj => (hidx j hj).1, hmap, ?_, ?_, ?_⟩
  · rw [hmap]; exact List.pairwise_lt_range n
  · intro h' axes' j hj
    obtain ⟨g1, g2⟩ := hidx j (le_of_lt hj)
    unfold iterator_over.equal
    rw [g1, g2]
    have : (iterator_over.make h' axes' s n).base.idx_ = n := rfl
    rw [this]
    simp only [Bool.and_eq_false_imp, decide_eq_true_eq, decide_eq_false_iff_not]
    intro _; omega
  · intro h' axes'
    obtain ⟨g1, g2⟩ := hidx n (le_refl n)
    unfold iterator_over.equal
    rw [g1, g2]
    have h1 : (iterator_over.make h' axes' s n).base.idx_ = n := rfl
    have h2 : (iterator_over.make h' axes' s n).storage_ = s := rfl
    rw [h1, h2]
    simp

/-- Witness of C11: the spec's scenario, axis 0 of size 2 with flow bins and
axis 1 of size 2 without, 8 cells. -/
theorem full_traversal_witness :
    total_cells [⟨2, true⟩, ⟨2, false⟩] = 8 ∧ 8 < SIZE_MOD ∧
    (List.range 8).map
        (fun j => ((iterator_over.make 1 [⟨2, true⟩, ⟨2, false⟩] 7 0).increment_times
          j).base.idx_) =
      List.range 8 ∧
    ((iterator_over.make 1 [⟨2, true⟩, ⟨2, false⟩] 7 0).increment_times 8).equal
        (iterator_over.make 1 [⟨2, true⟩, ⟨2, false⟩] 7 8) = true :=
  ⟨by decide, by decide,
    (full_traversal 1 [⟨2, true⟩, ⟨2, false⟩] 7 8 (by decide)).2.1,
    (full_traversal 1 [⟨2, true⟩, ⟨2, false⟩] 7 8 (by decide)).2.2.2.2 1
      [⟨2, true⟩, ⟨2, false⟩]⟩

/-- C12 (bin accessors and dereference): for a cursor in a state reachable
from its construction over the well-formed axes of its histogram and every
axis position `k < dim`: whenever `decode` of the current flat index is
defined, which it is for a flat index below the number of cells, the runtime
form `bin(k)` and the compile-time form `bin(mp_int<k>)` both return the
histogram's `axis(k)` accessor applied to the index decoded for axis `k`;
`bin()` is `bin(0)`; and `dereference` returns the cell of the storage at the
flat index, the same for every cache tag and table, so without a decode. -/
theorem bin_and_dereference {β γ : Type} (m : Memory β γ) (a : iterator_over) (F0 : Nat)
    (hwf : ∀ x ∈ (m.histogram a.histogram_).axes, x.wf)
    (hc : multi_index.Reachable (m.histogram a.histogram_).axes F0 a.base)
    (k : Nat) (hk : k < a.base.dim_) :
    (∀ ds, decode a.base.idx_ a.base.dim_ a.base.dims_ = some ds →
      ∃ d, ds[k]? = some d ∧
        a.bin_dim m k = some ((m.histogram a.histogram_).axis k d.idx,
          { a with base := { a.base with last_ := a.base.idx_, dims_ := ds } }) ∧
        a.bin_mp m k = some ((m.histogram a.histogram_).axis k d.idx,
          { a with base := { a.base with last_ := a.base.idx_, dims_ := ds } })) ∧
    (a.base.idx_ < total_cells (m.histogram a.histogram_).axes →
      ∃ ds, decode a.base.idx_ a.base.dim_ a.base.dims_ = some ds) ∧
    a.bin m = a.bin_dim m 0 ∧
    a.dereference m = (m.storage a.storage_)[a.base.idx_]? ∧
    (a.base.idx_ < (m.storage a.storage_).length →
      ∃ x, a.dereference m = some x ∧ (m.storage a.storage_)[a.base.idx_]? = some x) ∧
    (∀ b : iterator_over, b.storage_ = a.storage_ → b.base.idx_ = a.base.idx_ →
      b.dereference m = a.dereference m) := by
  refine ⟨?_, ?_, rfl, rfl, ?_, ?_⟩
  · intro ds hds
    obtain ⟨d, hd, hidx⟩ := reachable_idx _ F0 hwf a.base hc k hk ds hds
    refine ⟨d, hd, ?_, ?_⟩
    · unfold iterator_over.bin_dim iterator_over.idx
      rw [hidx]
    · unfold iterator_over.bin_mp iterator_over.idx
      rw [hidx]
  · intro hF
    have hne : (m.histogram a.histogram_).axes ≠ [] := by
      intro h0
      have := (reachable_cache _ F0 hwf a.base hc).1
      rw [h0] at this
      simp only [List.length_nil] at this
      omega
    obtain ⟨ds, hds, _⟩ := reachable_decode_defined _ F0 hne hwf a.base hc _ hF
    exact ⟨ds, hds⟩
  · intro hF
    exact ⟨(m.storage a.storage_)[a.base.idx_], by
      unfold iterator_over.dereference; exact List.getElem?_eq_getElem hF,
      List.getElem?_eq_getElem hF⟩
  · intro b h1 h2
    unfold iterator_over.dereference
    rw [h1, h2]

/-- Witness of C12: a histogram at address 1 with axis 0 of size 2 with flow
bins and axis 1 of size 2 without, whose accessor gives the pair of axis
position and index, a storage at address 7, and the cursor made at flat index
5: `bin(1)` is the bin of index 1 on axis 1. -/
theorem bin_and_dereference_witness :
    ∃ d, ([⟨1, 2, 1⟩, ⟨1, 2, 4⟩] : List dim_t)[1]? = some d ∧
      (iterator_over.make 1 [⟨2, true⟩, ⟨2, false⟩] 7 5).bin_dim
          (⟨fun _ => ⟨[⟨2, true⟩, ⟨2, false⟩], fun p i => (p, i)⟩,
            fun _ => [10, 11, 12, 13, 14, 15, 16, 17]⟩ : Memory (Nat × Int) Nat) 1 =
        some ((1, d.idx), ⟨⟨2, 5, 5, [⟨1, 2, 1⟩, ⟨1, 2, 4⟩]⟩, 1, 7⟩) ∧
      (iterator_over.make 1 [⟨2, true⟩, ⟨2, false⟩] 7 5).bin_mp
          (⟨fun _ => ⟨[⟨2, true⟩, ⟨2, false⟩], fun p i => (p, i)⟩,
            fun _ => [10, 11, 12, 13, 14, 15, 16, 17]⟩ : Memory (Nat × Int) Nat) 1 =
        some ((1, d.idx), ⟨⟨2, 5, 5, [⟨1, 2, 1⟩, ⟨1, 2, 4⟩]⟩, 1, 7⟩) :=
  (bin_and_dereference
    (⟨fun _ => ⟨[⟨2, true⟩, ⟨2, false⟩], fun p i => (p, i)⟩,
      fun _ => [10, 11, 12, 13, 14, 15, 16, 17]⟩ : Memory (Nat × Int) Nat)
    (iterator_over.make 1 [⟨2, true⟩, ⟨2, false⟩] 7 5) 5 (by decide)
    multi_index.Reachable.make 1 (by decide)).1 [⟨1, 2, 1⟩, ⟨1, 2, 4⟩] (by decide)

/-- C13, amended (dimension count 1): for dimension count 1 the loop
condition `(--dims, --dim)` leaves the pointer on position 0 with the counter
at 0, so the body is not entered: the loop leaves the flat index and the table
as they are, and `decode` returns, for every stride of the descriptor (also
0, no division is made), the table in which only the current index of
position 0 is rewritten, to the flat index converted to `int` with the fold
applied, which is the flat index itself with the fold applied when the flat
index is an `int` value; the descriptors behind position 0 are neither read
nor written. -/
theorem decode_dim_one (F : Nat) (d : dim_t) (rest : List dim_t) :
    loop_condition 1 1 = (0, 0, false) ∧
    decode_loop (1 - 1) F (d :: rest) = some (F, d :: rest) ∧
    decode F 1 (d :: rest) =
      some ({ idx := remap (sz_to_int F) d.size, size := d.size, stride := d.stride } :: rest) ∧
    ((F : Int) ≤ INT_MAX →
      decode F 1 (d :: rest) =
        some ({ idx := remap (F : Int) d.size, size := d.size, stride := d.stride } :: rest)) := by
  have h1 : decode F 1 (d :: rest) =
      some ({ idx := remap (sz_to_int F) d.size, size := d.size, stride := d.stride } ::
        rest) := by
    simp [decode, decode_loop, decode_last]
  refine ⟨by decide, by simp [decode_loop], h1, ?_⟩
  intro hF
  unfold INT_MAX at hF
  have hw : sz_to_int F = (F : Int) := by
    unfold sz_to_int; apply wrap_int_eq <;> omega
  rw [h1, hw]

/-- Witness of C13, amended: one axis of size 3 with flow bins and stride 0
in its descriptor, a further descriptor behind it, flat index 4. -/
theorem decode_dim_one_witness :
    ((4 : Nat) : Int) ≤ INT_MAX ∧
    decode 4 1 [⟨0, 3, 0⟩, ⟨7, 2, 5⟩] = some [⟨remap ((4 : Nat) : Int) 3, 3, 0⟩, ⟨7, 2, 5⟩] ∧
    remap ((4 : Nat) : Int) 3 = -1 :=
  ⟨by decide, (decode_dim_one 4 ⟨0, 3, 0⟩ [⟨7, 2, 5⟩]).2.2.2 (by decide), by decide⟩

/-- Counterexample to C13 as stated: for dimension count 0 the loop condition
moves the pointer to position `-1`, before the table, and wraps the counter
around to `2 ^ 32 - 1`, so the body is entered there and `decode` is not
defined. -/
theorem decode_dim_zero_counterexample :
    loop_condition 0 0 = (-1, 4294967295, true) ∧
    decode 0 0 [] = none ∧ decode 5 0 [⟨0, 3, 1⟩] = none :=
  ⟨by decide, by decide, by decide⟩

/-- C14 (frame of decode): for every table of `dim >= 1` descriptors without a
zero stride and every flat index, `decode` returns a table with the same
number of descriptors and the same sizes and strides; the table it returns is
the same for every table with these sizes and strides, whatever current
indices it held before the call, so every current index is overwritten with a
value that depends on the flat index, the sizes and the strides only; and
decoding the same flat index again gives the same table. -/
theorem decode_frame (ds : List dim_t) (hne : ds ≠ []) (hs : ∀ d ∈ ds, d.stride ≠ 0)
    (F : Nat) :
    ∃ ds', decode F ds.length ds = some ds' ∧
      ds'.length = ds.length ∧
      ds'.map dim_t.size = ds.map dim_t.size ∧
      ds'.map dim_t.stride = ds.map dim_t.stride ∧
      (∀ ds2 : List dim_t, ds2.map dim_t.size = ds.map dim_t.size →
        ds2.map dim_t.stride = ds.map dim_t.stride →
        decode F ds2.length ds2 = some ds') ∧
      decode F ds'.length ds' = some ds' := by
  obtain ⟨ds', hd⟩ := decode_defined ds hne hs F
  obtain ⟨hlen, hst⟩ := decode_static _ _ _ _ hd
  have hsplit : ∀ l1 l2 : List dim_t, l1.map dim_t.static = l2.map dim_t.static →
      l1.map dim_t.size = l2.map dim_t.size ∧ l1.map dim_t.stride = l2.map dim_t.stride := by
    intro l1 l2 h
    have h1 := congrArg (List.map Prod.fst) h
    have h2 := congrArg (List.map Prod.snd) h
    simp only [List.map_map] at h1 h2
    exact ⟨h1, h2⟩
  have hjoin : ∀ l1 l2 : List dim_t, l1.map dim_t.size = l2.map dim_t.size →
      l1.map dim_t.stride = l2.map dim_t.stride →
      l1.map dim_t.static = l2.map dim_t.static := by
    intro l1
    induction l1 with
    | nil =>
      intro l2 h _
      have : l2 = [] := by simpa using h.symm
      rw [this]
    | cons x l1 ih =>
      intro l2 h1 h2
      cases l2 with
      | nil => simp at h1
      | cons y l2 =>
        simp only [List.map_cons, List.cons.injEq] at h1 h2 ⊢
        exact ⟨by unfold dim_t.static; rw [h1.1, h2.1], ih l2 h1.2 h2.2⟩
  refine ⟨ds', hd, hlen, (hsplit _ _ hst).1, (hsplit _ _ hst).2, ?_, ?_⟩
  · intro ds2 h1 h2
    rw [decode_congr ds2 ds F (hjoin _ _ h1 h2), hd]
  · rw [hlen]; exact decode_idempotent _ _ _ hd

/-- Witness of C14: the table of axis 0 of size 2 with flow bins and axis 1 of
size 2 without, flat index 5, against a table holding other current
indices. -/
theorem decode_frame_witness :
    ([⟨0, 2, 1⟩, ⟨0, 2, 4⟩] : List dim_t) ≠ [] ∧
    (∀ d ∈ ([⟨0, 2, 1⟩, ⟨0, 2, 4⟩] : List dim_t), d.stride ≠ 0) ∧
    ∃ ds', decode 5 2 [⟨0, 2, 1⟩, ⟨0, 2, 4⟩] = some ds' ∧
      decode 5 2 [⟨-1, 2, 1⟩, ⟨9, 2, 4⟩] = some ds' ∧
      decode 5 2 ds' = some ds' :=
  ⟨by decide, by decide,
    let h := decode_frame [⟨0, 2, 1⟩, ⟨0, 2, 4⟩] (by decide) (by decide) 5
    ⟨h.choose, h.choose_spec.1,
      h.choose_spec.2.2.2.2.1 [⟨-1, 2, 1⟩, ⟨9, 2, 4⟩] rfl rfl,
      by
        have h2 := h.choose_spec.2.2.2.2.2
        rw [h.choose_spec.2.1] at h2
        exact h2⟩⟩

/-- C19 (the axis-0 special case is the general step): for every table whose
descriptor of axis 0 has stride 1 and every flat index, the code's `decode`
(loop over the axes `dim - 1` down to 1, then the assignment without a
division for axis 0) and the uniform decode (the loop body on every axis from
`dim - 1` down to 0) give the same result; on a table of `dim >= 1`
descriptors whose other strides are not zero both return, the same table. -/
theorem decode_axis0_equivalent (ds : List dim_t) (dim F : Nat)
    (h0 : ∀ d, ds[0]? = some d → d.stride = 1) :
    decode F dim ds = decode_uniform F dim ds ∧
    (1 ≤ dim → dim = ds.length → (∀ d ∈ ds, d.stride ≠ 0) →
      ∃ ds', decode F dim ds = some ds' ∧ decode_uniform F dim ds = some ds') := by
  refine ⟨decode_eq_uniform F dim ds h0, ?_⟩
  intro h1 hlen hs
  have hne : ds ≠ [] := by
    intro h; rw [h] at hlen; simp at hlen; omega
  obtain ⟨ds', hd⟩ := decode_defined ds hne hs F
  rw [← hlen] at hd
  exact ⟨ds', hd, by rw [← decode_eq_uniform F dim ds h0]; exact hd⟩

/-- Witness of C19: the table of axis 0 of size 2 with flow bins and axis 1 of
size 2 without, flat index 7. -/
theorem decode_axis0_equivalent_witness :
    (∀ d, ([⟨0, 2, 1⟩, ⟨0, 2, 4⟩] : List dim_t)[0]? = some d → d.stride = 1) ∧
    decode 7 2 [⟨0, 2, 1⟩, ⟨0, 2, 4⟩] = decode_uniform 7 2 [⟨0, 2, 1⟩, ⟨0, 2, 4⟩] ∧
    decode_uniform 7 2 [⟨0, 2, 1⟩, ⟨0, 2, 4⟩] = some [⟨-1, 2, 1⟩, ⟨1, 2, 4⟩] :=
  ⟨by simp, (decode_axis0_equivalent [⟨0, 2, 1⟩, ⟨0, 2, 4⟩] 2 7 (by simp)).1, by decide⟩

/-- C15, amended (meaning of a stride): for every non-empty list of
well-formed axes with the builder's stride table and every two flat indices
`F < G` below the number of cells, `decode` returns for both, and for every
axis `k`: if the two decoded index tuples agree on every axis other than `k`
and the index of `G` on axis `k` is the index of `F` on axis `k` plus one,
then `G - F` is the stride of axis `k`. -/
theorem stride_is_distance (axes : List Axis) (hne : axes ≠ []) (hwf : ∀ a ∈ axes, a.wf)
    (F G : Nat) (hFG : F < G) (hG : G < total_cells axes) :
    ∃ dsF dsG, decode F axes.length (stride_table axes) = some dsF ∧
      decode G axes.length (stride_table axes) = some dsG ∧
      ∀ (k : Nat) (dF dG dk : dim_t), dsF[k]? = some dF → dsG[k]? = some dG →
        (stride_table axes)[k]? = some dk →
        (∀ j : Nat, j ≠ k → (dsF[j]?).map dim_t.idx = (dsG[j]?).map dim_t.idx) →
        dG.idx = dF.idx + 1 → G - F = dk.stride := by
  obtain ⟨dsF, hdF, hsF, heF, hvF⟩ := decode_stride_table axes hne hwf F (lt_trans hFG hG)
  obtain ⟨dsG, hdG, hsG, heG, hvG⟩ := decode_stride_table axes hne hwf G hG
  refine ⟨dsF, dsG, hdF, hdG, ?_⟩
  intro k dF dG dk hkF hkG hk hother hone
  have hdiff := encode_diff dsF dsG k dF dG (hsF.trans hsG.symm) hkF hkG hother
  rw [heF, heG] at hdiff
  obtain ⟨hszF, hstF⟩ := static_getElem? _ _ k dF dk hsF hkF hk
  obtain ⟨hszG, _⟩ := static_getElem? _ _ k dG dk hsG hkG hk
  have hkl : k < axes.length := by
    have := (List.getElem?_eq_some_iff.mp hk).1
    rw [stride_table_length] at this; exact this
  have ha : axes[k]? = some (axes.get ⟨k, hkl⟩) := List.getElem?_eq_getElem hkl
  generalize axes.get ⟨k, hkl⟩ = a at ha
  have hdk := stride_table_getElem? axes k a ha
  rw [hk, Option.some.injEq] at hdk
  have hsz : dk.size = a.size := by rw [hdk]
  have hwa : a.wf := hwf a (List.getElem?_mem ha)
  have hvalF := forall₂_getElem? axes dsF hvF k a dF ha hkF
  have hvalG := forall₂_getElem? axes dsG hvG k a dG ha hkG
  obtain ⟨hs0, _⟩ := hwa
  unfold Axis.valid_index at hvalF hvalG
  rw [hszF, hszG, hstF, hsz, hone] at hdiff
  have hlow : -1 ≤ dF.idx := by
    split at hvalF <;> omega
  have hstr : (0 : Int) ≤ (dk.stride : Int) := Int.natCast_nonneg _
  by_cases hneg : dF.idx < 0
  · have hm1 : dF.idx = -1 := by omega
    rw [hm1] at hdiff
    unfold raw_index at hdiff
    simp only [show ¬ ((-1 : Int) + 1 < 0) by omega, show ((-1 : Int) < 0) by omega,
      if_true, if_false] at hdiff
    have hnn : (0 : Int) ≤ (a.size + 1) * (dk.stride : Int) :=
      mul_nonneg (by omega) hstr
    have : (G : Int) - (F : Int) ≤ 0 := by rw [hdiff]; linarith
    omega
  · unfold raw_index at hdiff
    simp only [show ¬ (dF.idx + 1 < 0) by omega, hneg, if_false] at hdiff
    have : (G : Int) - (F : Int) = (dk.stride : Int) := by rw [hdiff]; ring
    omega

/-- Witness of C15, amended: axis 0 of size 2 with flow bins (stride 1) and
axis 1 of size 2 without (stride 4); flat indices 1 and 5 decode to `(1, 0)`
and `(1, 1)`, and `5 - 1` is the stride of axis 1. -/
theorem stride_is_distance_witness :
    ([⟨2, true⟩, ⟨2, false⟩] : List Axis) ≠ [] ∧
    (∀ a ∈ ([⟨2, true⟩, ⟨2, false⟩] : List Axis), a.wf) ∧
    1 < 5 ∧ 5 < total_cells [⟨2, true⟩, ⟨2, false⟩] ∧
    decode 1 2 (stride_table [⟨2, true⟩, ⟨2, false⟩]) = some [⟨1, 2, 1⟩, ⟨0, 2, 4⟩] ∧
    decode 5 2 (stride_table [⟨2, true⟩, ⟨2, false⟩]) = some [⟨1, 2, 1⟩, ⟨1, 2, 4⟩] ∧
    (stride_table [⟨2, true⟩, ⟨2, false⟩])[1]? = some ⟨0, 2, 4⟩ ∧
    ∃ dsF dsG, decode 1 ([⟨2, true⟩, ⟨2, false⟩] : List Axis).length
        (stride_table [⟨2, true⟩, ⟨2, false⟩]) = some dsF ∧
      decode 5 ([⟨2, true⟩, ⟨2, false⟩] : List Axis).length
        (stride_table [⟨2, true⟩, ⟨2, false⟩]) = some dsG ∧
      ∀ (k : Nat) (dF dG dk : dim_t), dsF[k]? = some dF → dsG[k]? = some dG →
        (stride_table [⟨2, true⟩, ⟨2, false⟩])[k]? = some dk →
        (∀ j : Nat, j ≠ k → (dsF[j]?).map dim_t.idx = (dsG[j]?).map dim_t.idx) →
        dG.idx = dF.idx + 1 → 5 - 1 = dk.stride :=
  ⟨by decide, by decide, by decide, by decide, by decide, by decide, by decide,
    stride_is_distance [⟨2, true⟩, ⟨2, false⟩] (by decide) (by decide) 1 5 (by decide)
      (by decide)⟩

/-- Counterexample to C15 as stated: on one axis of size 3 with flow bins
(stride 1, 5 cells) the flat indices 0 and 4 decode to the indices `0` and
`-1`, which differ by exactly one, and the distance `4 - 0` is not the
stride. -/
theorem stride_is_distance_counterexample :
    (∀ a ∈ ([⟨3, true⟩] : List Axis), a.wf ∧ 1 ≤ a.shape) ∧
    0 < 4 ∧ 4 < total_cells [⟨3, true⟩] ∧
    stride_table [⟨3, true⟩] = [⟨0, 3, 1⟩] ∧
    decode 0 1 (stride_table [⟨3, true⟩]) = some [⟨0, 3, 1⟩] ∧
    decode 4 1 (stride_table [⟨3, true⟩]) = some [⟨-1, 3, 1⟩] ∧
    |(0 : Int) - (-1)| = 1 ∧ 4 - 0 ≠ 1 :=
  ⟨by decide, by decide, by decide, by decide, by decide, by decide, by decide, by decide⟩

/-- C16, amended (decode equals the mixed-radix reference): for every
non-empty list of well-formed axes whose exact product of extents is below
`2 ^ 64`, with the builder's stride table, and every flat index `F` below the
number of cells, `decode` returns and the index it writes for axis `k` is
`fold_k ((F / stride_k) mod extent_k)`, where `fold_k q = q - (size_k + 2)` if
`q > size_k` and `q` otherwise. -/
theorem decode_is_mixed_radix (axes : List Axis) (hne : axes ≠ [])
    (hwf : ∀ a ∈ axes, a.wf) (hfit : exact_cells axes < (SIZE_MOD : Int)) (F : Nat)
    (hF : F < total_cells axes) :
    ∃ ds, decode F axes.length (stride_table axes) = some ds ∧ ds.length = axes.length ∧
      ∀ (k : Nat) (a : Axis) (d dk : dim_t), axes[k]? = some a → ds[k]? = some d →
        (stride_table axes)[k]? = some dk →
        d.idx = fold_ref a.size (((F : Int) / (dk.stride : Int)) % a.shape) := by
  obtain ⟨ds, hd, hlen, h⟩ := decode_fold_ref axes hne hwf hfit F hF
  exact ⟨ds, hd, hlen, fun k a d dk ha hdk hst => (h k a d dk ha hdk hst).2.2⟩

/-- Witness of C16, amended: the spec's scenario, axis 0 of size 2 with flow
bins (extent 4, stride 1) and axis 1 of size 2 without (extent 2, stride 4);
`decode(5) = (1, 1)`. -/
theorem decode_is_mixed_radix_witness :
    ([⟨2, true⟩, ⟨2, false⟩] : List Axis) ≠ [] ∧
    (∀ a ∈ ([⟨2, true⟩, ⟨2, false⟩] : List Axis), a.wf) ∧
    exact_cells [⟨2, true⟩, ⟨2, false⟩] < (SIZE_MOD : Int) ∧
    5 < total_cells [⟨2, true⟩, ⟨2, false⟩] ∧
    decode 5 2 (stride_table [⟨2, true⟩, ⟨2, false⟩]) = some [⟨1, 2, 1⟩, ⟨1, 2, 4⟩] ∧
    fold_ref 2 (((5 : Nat) : Int) / ((1 : Nat) : Int) % 4) = 1 ∧
    fold_ref 2 (((5 : Nat) : Int) / ((4 : Nat) : Int) % 2) = 1 ∧
    ∃ ds, decode 5 ([⟨2, true⟩, ⟨2, false⟩] : List Axis).length
        (stride_table [⟨2, true⟩, ⟨2, false⟩]) = some ds ∧
      ds.length = ([⟨2, true⟩, ⟨2, false⟩] : List Axis).length ∧
      ∀ (k : Nat) (a : Axis) (d dk : dim_t),
        ([⟨2, true⟩, ⟨2, false⟩] : List Axis)[k]? = some a → ds[k]? = some d →
        (stride_table [⟨2, true⟩, ⟨2, false⟩])[k]? = some dk →
        d.idx = fold_ref a.size ((((5 : Nat) : Int) / (dk.stride : Int)) % a.shape) :=
  ⟨by decide, by decide, by decide, by decide, by decide, by decide, by decide,
    decode_is_mixed_radix [⟨2, true⟩, ⟨2, false⟩] (by decide) (by decide) (by decide) 5
      (by decide)⟩

/-- Counterexample to C16 as stated: on the four well-formed axes without flow
bins of sizes `2 ^ 30`, `2 ^ 30`, `17`, `2` (strides `1`, `2 ^ 30`, `2 ^ 60`,
`2 ^ 60`) and the flat index `2 ^ 60`, below the number of cells, `decode`
writes index 0 for axis 2, and `(F / stride_2) mod extent_2` is 1. -/
theorem decode_is_mixed_radix_counterexample :
    wide_axes ≠ [] ∧ (∀ a ∈ wide_axes, a.wf ∧ 1 ≤ a.shape) ∧
    1152921504606846976 < total_cells wide_axes ∧
    (stride_table wide_axes)[2]? = some ⟨0, 17, 1152921504606846976⟩ ∧
    wide_axes[2]? = some ⟨17, false⟩ ∧
    decode 1152921504606846976 wide_axes.length (stride_table wide_axes) =
      some [⟨0, 1073741824, 1⟩, ⟨0, 1073741824, 1073741824⟩,
        ⟨0, 17, 1152921504606846976⟩, ⟨1, 2, 1152921504606846976⟩] ∧
    fold_ref 17 ((((1152921504606846976 : Nat) : Int) /
      ((1152921504606846976 : Nat) : Int)) % (⟨17, false⟩ : Axis).shape) = 1 ∧
    (0 : Int) ≠ 1 :=
  ⟨by decide, by decide, by decide, by decide, by decide, by decide, by decide, by decide⟩

/-- C18, amended (which linear position is which flow cell): for every
non-empty list of well-formed axes whose exact product of extents is below
`2 ^ 64`, every flat index `F` below the number of cells and every axis `k`
with flow bins, with `q = (F / stride_k) mod (size_k + 2)` the raw position on
the axis: `decode` writes `-1` exactly when `q = size_k + 1`, writes `size_k`
exactly when `q = size_k`, and writes `q` when `q < size_k`; along the axis the
cells are the regular bins `0..size - 1`, then overflow, then underflow. -/
theorem decode_flow_positions (axes : List Axis) (hne : axes ≠ [])
    (hwf : ∀ a ∈ axes, a.wf) (hfit : exact_cells axes < (SIZE_MOD : Int)) (F : Nat)
    (hF : F < total_cells axes) :
    ∃ ds, decode F axes.length (stride_table axes) = some ds ∧ ds.length = axes.length ∧
      ∀ (k : Nat) (a : Axis) (d dk : dim_t), axes[k]? = some a → ds[k]? = some d →
        (stride_table axes)[k]? = some dk → a.uoflow = true →
        (d.idx = -1 ↔ ((F : Int) / (dk.stride : Int)) % (a.size + 2) = a.size + 1) ∧
        (d.idx = a.size ↔ ((F : Int) / (dk.stride : Int)) % (a.size + 2) = a.size) ∧
        (((F : Int) / (dk.stride : Int)) % (a.size + 2) < a.size →
          d.idx = ((F : Int) / (dk.stride : Int)) % (a.size + 2)) := by
  obtain ⟨ds, hd, hlen, h⟩ := decode_fold_ref axes hne hwf hfit F hF
  refine ⟨ds, hd, hlen, ?_⟩
  intro k a d dk ha hdk hst hflow
  obtain ⟨h0, h1, h2⟩ := h k a d dk ha hdk hst
  have hsz : 0 ≤ a.size := (hwf a (List.getElem?_mem ha)).1
  have hshape : a.shape = a.size + 2 := by unfold Axis.shape; rw [if_pos hflow]
  rw [hshape] at h0 h1 h2
  generalize ((F : Int) / (dk.stride : Int)) % (a.size + 2) = q at h0 h1 h2
  unfold fold_ref at h2
  by_cases hq : q > a.size
  · rw [if_pos hq] at h2
    exact ⟨by constructor <;> intro <;> omega, by constructor <;> intro <;> omega,
      by intro; omega⟩
  · rw [if_neg hq] at h2
    exact ⟨by constructor <;> intro <;> omega, by constructor <;> intro <;> omega,
      by intro; omega⟩

/-- Witness of C18, amended: axis 0 of size 2 with flow bins (stride 1) and
axis 1 of size 2 without; flat index 3 has raw position 3 on axis 0 and
decodes to the underflow index `-1`, flat index 6 has raw position 2 and
decodes to the overflow index 2. -/
theorem decode_flow_positions_witness :
    ([⟨2, true⟩, ⟨2, false⟩] : List Axis) ≠ [] ∧
    (∀ a ∈ ([⟨2, true⟩, ⟨2, false⟩] : List Axis), a.wf) ∧
    exact_cells [⟨2, true⟩, ⟨2, false⟩] < (SIZE_MOD : Int) ∧
    3 < total_cells [⟨2, true⟩, ⟨2, false⟩] ∧
    decode 3 2 (stride_table [⟨2, true⟩, ⟨2, false⟩]) = some [⟨-1, 2, 1⟩, ⟨0, 2, 4⟩] ∧
    decode 6 2 (stride_table [⟨2, true⟩, ⟨2, false⟩]) = some [⟨2, 2, 1⟩, ⟨1, 2, 4⟩] ∧
    ∃ ds, decode 3 ([⟨2, true⟩, ⟨2, false⟩] : List Axis).length
        (stride_table [⟨2, true⟩, ⟨2, false⟩]) = some ds ∧
      ds.length = ([⟨2, true⟩, ⟨2, false⟩] : List Axis).length ∧
      ∀ (k : Nat) (a : Axis) (d dk : dim_t),
        ([⟨2, true⟩, ⟨2, false⟩] : List Axis)[k]? = some a → ds[k]? = some d →
        (stride_table [⟨2, true⟩, ⟨2, false⟩])[k]? = some dk → a.uoflow = true →
        (d.idx = -1 ↔ (((3 : Nat) : Int) / (dk.stride : Int)) % (a.size + 2) = a.size + 1) ∧
        (d.idx = a.size ↔ (((3 : Nat) : Int) / (dk.stride : Int)) % (a.size + 2) = a.size) ∧
        ((((3 : Nat) : Int) / (dk.stride : Int)) % (a.size + 2) < a.size →
          d.idx = (((3 : Nat) : Int) / (dk.stride : Int)) % (a.size + 2)) :=
  ⟨by decide, by decide, by decide, by decide, by decide, by decide,
    decode_flow_positions [⟨2, true⟩, ⟨2, false⟩] (by decide) (by decide) (by decide) 3
      (by decide)⟩

/-- Counterexample to C18 as stated: on the four well-formed axes of sizes
`2 ^ 30`, `2 ^ 30`, `15` with flow bins (extent 17) and `2` (strides `1`,
`2 ^ 30`, `2 ^ 60`, `2 ^ 60`) and the flat index `2 ^ 60`, below the number of
cells, the raw position of axis 2 is `q = 1 < 15`, and `decode` writes index 0
for axis 2. -/
theorem decode_flow_positions_counterexample :
    wide_flow_axes ≠ [] ∧ (∀ a ∈ wide_flow_axes, a.wf ∧ 1 ≤ a.shape) ∧
    1152921504606846976 < total_cells wide_flow_axes ∧
    (stride_table wide_flow_axes)[2]? = some ⟨0, 15, 1152921504606846976⟩ ∧
    wide_flow_axes[2]? = some ⟨15, true⟩ ∧
    decode 1152921504606846976 wide_flow_axes.length (stride_table wide_flow_axes) =
      some [⟨0, 1073741824, 1⟩, ⟨0, 1073741824, 1073741824⟩,
        ⟨0, 15, 1152921504606846976⟩, ⟨1, 2, 1152921504606846976⟩] ∧
    (((1152921504606846976 : Nat) : Int) / ((1152921504606846976 : Nat) : Int)) %
      ((15 : Int) + 2) = 1 ∧
    (1 : Int) < 15 ∧ (0 : Int) ≠ 1 :=
  ⟨by decide, by decide, by decide, by decide, by decide, by decide, by decide, by decide,
    by decide⟩

/-! ## Copies and the cache -/

theorem reachable_copy_cache (c : multi_index) (hc : multi_index.ReachableCopy c) :
    c.dims_.length = c.dim_ ∧ 1 ≤ c.dim_ ∧
    ∀ ds, decode c.last_ c.dim_ c.dims_ = some ds → ds = c.dims_ := by
  induction hc with
  | make axes F0 hne hwf _ =>
    refine ⟨stride_table_length axes, ?_, ?_⟩
    · show 1 ≤ axes.length
      exact Nat.pos_of_ne_zero (by simpa using hne)
    · intro ds h
      exact decode_zero _ _ _ (stride_table_fresh axes hwf) h
  | increment _ ih => exact ih
  | decrement _ ih => exact ih
  | @idx c c' k v _ hstep ih =>
    obtain ⟨h1, _, h3, _, h5⟩ := idx_result c c' k v hstep
    rcases h5 with ⟨_, h5⟩ | ⟨_, h5⟩
    · subst h5; exact ih
    · rw [← ih.1] at h5
      obtain ⟨hl, _⟩ := decode_static _ _ _ _ h5
      refine ⟨by rw [hl, h1]; exact ih.1, by rw [h1]; exact ih.2.1, ?_⟩
      intro ds hds
      have hid := decode_idempotent _ _ _ h5
      rw [h3, h1, ← ih.1, hid] at hds
      exact (Option.some.inj hds).symm
  | @copy o _ ih =>
    have hd : o.copy = o := by
      obtain ⟨dim, idx, last, dims⟩ := o
      have h := ih.1
      simp only at h
      subst h
      unfold multi_index.copy
      simp only [List.take_length]
    rw [hd]; exact ih
  | @assign c o _ _ ihc iho =>
    have hd : c.assign o = o := by
      obtain ⟨cdim, cidx, clast, cdims⟩ := c
      obtain ⟨dim, idx, last, dims⟩ := o
      have h1 := ihc.1
      have h2 := iho.1
      simp only at h1 h2
      subst h1 h2
      unfold multi_index.assign
      simp only [List.take_length]
      by_cases he : cdims.length ≠ dims.length
      · rw [if_pos he]
      · rw [if_neg he]
        have : cdims.length = dims.length := by omega
        rw [← this, List.drop_length, List.append_nil]
    rw [hd]; exact iho

/-! ## Safety of decode and idx -/

theorem decode_append (F n : Nat) (pre post : List dim_t) (h1 : 1 ≤ n) (h2 : n ≤ pre.length) :
    decode F n (pre ++ post) = (decode F n pre).map (fun ds => ds ++ post) := by
  unfold decode
  have hn : n ≠ 0 := by omega
  rw [if_neg hn, if_neg hn, decode_loop_append (n - 1) F pre post (by omega)]
  cases hl : decode_loop (n - 1) F pre with
  | none => rfl
  | some r =>
    have hlen := (decode_loop_static _ _ _ _ hl).1
    have hr : r.2 ≠ [] := by
      intro h; rw [h] at hlen; simp at hlen; omega
    obtain ⟨x, xs, hx⟩ := List.exists_cons_of_ne_nil hr
    simp [hx]

theorem stride_table_ne_zero (l : List Axis) :
    total_cells l ≠ 0 → ∀ d ∈ stride_table l, d.stride ≠ 0 := by
  induction l using List.reverseRecOn with
  | nil => intro _ d hd; simp [stride_table_nil] at hd
  | append_singleton l a ih =>
    intro h d hd
    rw [total_cells_snoc] at h
    have hT : total_cells l ≠ 0 := by
      intro h0; apply h; unfold sz_mul; rw [h0, Nat.zero_mul]; rfl
    rw [stride_table_snoc, List.mem_append, List.mem_singleton] at hd
    rcases hd with hd | hd
    · exact ih hT d hd
    · subst hd; exact hT

theorem exact_cells_pos (l : List Axis) (h : ∀ a ∈ l, 1 ≤ a.shape) : 1 ≤ exact_cells l := by
  unfold exact_cells
  induction l with
  | nil => simp
  | cons a l ih =>
    simp only [List.map_cons, List.prod_cons]
    have h1 := h a (by simp)
    have h2 := ih (fun b hb => h b (by simp [hb]))
    nlinarith

theorem total_cells_ne_zero (l : List Axis) (hwf : ∀ a ∈ l, a.wf)
    (hext : ∀ a ∈ l, 1 ≤ a.shape) (hfit : exact_cells l < (SIZE_MOD : Int)) :
    total_cells l ≠ 0 := by
  have h1 := total_cells_exact l hwf hfit
  have h2 := exact_cells_pos l hext
  intro h0
  rw [h0] at h1
  simp only [Nat.cast_zero] at h1
  omega

/-- C17 (cache representation invariant): in every state reachable from a
construction `multi_index(h, F0)` over a non-empty list of well-formed axes
with extents of at least 1 by `increment`, `decrement`, `idx`, copy
construction and copy assignment from reachable states, the table has `dim`
descriptors and, whenever `decode` of the cache tag `last_` is defined, the
table it gives is the table held, so the current indices held are those of
`decode(last_)`; `decode(last_)` is defined when no stride of the table is
zero.  At construction the tag is 0 and every current index is 0. -/
theorem cache_invariant (c : multi_index) (hc : multi_index.ReachableCopy c) :
    c.dims_.length = c.dim_ ∧
    (∀ ds, decode c.last_ c.dim_ c.dims_ = some ds →
      ds = c.dims_ ∧ ds.map dim_t.idx = c.dims_.map dim_t.idx) ∧
    ((∀ d ∈ c.dims_, d.stride ≠ 0) → decode c.last_ c.dim_ c.dims_ = some c.dims_) ∧
    (∀ (axes : List Axis) (F0 : Nat),
      (multi_index.make axes F0).last_ = 0 ∧
      ∀ d ∈ (multi_index.make axes F0).dims_, d.idx = 0) := by
  obtain ⟨h1, h2, h3⟩ := reachable_copy_cache c hc
  refine ⟨h1, ?_, ?_, ?_⟩
  · intro ds hds
    have := h3 ds hds
    exact ⟨this, by rw [this]⟩
  · intro hs
    have hne : c.dims_ ≠ [] := by
      intro h0; rw [h0] at h1; simp at h1; omega
    obtain ⟨ds, hds⟩ := decode_defined c.dims_ hne hs c.last_
    rw [h1] at hds
    rw [hds, h3 ds hds]
  · intro axes F0
    refine ⟨rfl, ?_⟩
    show ∀ d ∈ stride_table axes, d.idx = 0
    induction axes using List.reverseRecOn with
    | nil => intro d hd; simp [stride_table_nil] at hd
    | append_singleton l a ih =>
      intro d hd
      rw [stride_table_snoc, List.mem_append, List.mem_singleton] at hd
      rcases hd with hd | hd
      · exact ih d hd
      · subst hd; rfl

/-- Witness of C17: over axis 0 of size 2 with flow bins and axis 1 of size 2
without, the cursor made at flat index 5 after `idx(0)`, copied, and assigned
to a cursor made over one axis of size 3: its table is that of `decode(5)`. -/
theorem cache_invariant_witness :
    (multi_index.make [⟨3, true⟩] 2).assign
        (⟨2, 5, 5, [⟨1, 2, 1⟩, ⟨1, 2, 4⟩]⟩ : multi_index).copy =
      ⟨2, 5, 5, [⟨1, 2, 1⟩, ⟨1, 2, 4⟩]⟩ ∧
    decode 5 2 [⟨1, 2, 1⟩, ⟨1, 2, 4⟩] = some [⟨1, 2, 1⟩, ⟨1, 2, 4⟩] ∧
    decode ((multi_index.make [⟨3, true⟩] 2).assign
          (⟨2, 5, 5, [⟨1, 2, 1⟩, ⟨1, 2, 4⟩]⟩ : multi_index).copy).last_
        ((multi_index.make [⟨3, true⟩] 2).assign
          (⟨2, 5, 5, [⟨1, 2, 1⟩, ⟨1, 2, 4⟩]⟩ : multi_index).copy).dim_
        ((multi_index.make [⟨3, true⟩] 2).assign
          (⟨2, 5, 5, [⟨1, 2, 1⟩, ⟨1, 2, 4⟩]⟩ : multi_index).copy).dims_ =
      some ((multi_index.make [⟨3, true⟩] 2).assign
          (⟨2, 5, 5, [⟨1, 2, 1⟩, ⟨1, 2, 4⟩]⟩ : multi_index).copy).dims_ :=
  ⟨by decide, by decide,
    (cache_invariant _
      (multi_index.ReachableCopy.assign
        (multi_index.ReachableCopy.make [⟨3, true⟩] 2 (by decide) (by decide) (by decide))
        (multi_index.ReachableCopy.copy
          (multi_index.ReachableCopy.idx
            (multi_index.ReachableCopy.make [⟨2, true⟩, ⟨2, false⟩] 5 (by decide) (by decide)
              (by decide))
            (by decide : (multi_index.make [⟨2, true⟩, ⟨2, false⟩] 5).idx 0 =
              some (1, ⟨2, 5, 5, [⟨1, 2, 1⟩, ⟨1, 2, 4⟩]⟩)))))).2.2.1 (by decide)⟩

/-- C20, amended (no division by zero, no access outside the table): for
every non-empty list of well-formed axes with extents of at least 1 whose
exact product of extents is below `2 ^ 64`, every stride the builder makes is
at least 1; `decode` with `dim` the number of axes returns for every flat
index, so no division has a zero divisor and no descriptor outside the table
is touched; descriptors behind position `dim - 1` are neither read nor
written; and in every reachable cursor state `idx(k)` with `k < dim` finds its
descriptor inside the table and returns. -/
theorem decode_idx_safe (axes : List Axis) (hne : axes ≠ []) (hwf : ∀ a ∈ axes, a.wf)
    (hext : ∀ a ∈ axes, 1 ≤ a.shape) (hfit : exact_cells axes < (SIZE_MOD : Int)) :
    (∀ d ∈ stride_table axes, 1 ≤ d.stride) ∧
    (∀ F : Nat, ∃ ds, decode F axes.length (stride_table axes) = some ds) ∧
    (∀ (F : Nat) (post : List dim_t),
      decode F axes.length (stride_table axes ++ post) =
        (decode F axes.length (stride_table axes)).map (fun ds => ds ++ post)) ∧
    (∀ (F0 : Nat) (c : multi_index), multi_index.Reachable axes F0 c →
      ∀ k, k < c.dim_ → (∃ d, c.dims_[k]? = some d) ∧ ∃ v c', c.idx k = some (v, c')) := by
  have hT := total_cells_ne_zero axes hwf hext hfit
  have hs := stride_table_ne_zero axes hT
  have hlen := stride_table_length axes
  have hne' : stride_table axes ≠ [] := by
    intro h; rw [h] at hlen; exact hne (List.length_eq_zero.mp hlen.symm)
  have hpos : 1 ≤ axes.length := Nat.pos_of_ne_zero (by simpa using hne)
  refine ⟨fun d hd => Nat.pos_of_ne_zero (hs d hd), ?_, ?_, ?_⟩
  · intro F
    have := decode_defined (stride_table axes) hne' hs F
    rw [hlen] at this; exact this
  · intro F post
    exact decode_append F axes.length _ post hpos (by rw [hlen])
  · intro F0 c hc k hk
    obtain ⟨h1, h2, _⟩ := reachable_cache axes F0 hwf c hc
    obtain ⟨_, hst⟩ := reachable_static axes F0 c hc
    have hkl : k < c.dims_.length := by rw [h2, ← h1]; exact hk
    refine ⟨⟨c.dims_[k], List.getElem?_eq_getElem hkl⟩, ?_⟩
    unfold multi_index.idx
    by_cases he : c.idx_ = c.last_
    · rw [idx_with_cached _ _ _ he, List.getElem?_eq_getElem hkl]
      exact ⟨_, _, rfl⟩
    · have hcne : c.dims_ ≠ [] := by
        intro h0; rw [h0] at hkl; simp at hkl
      have hcs : ∀ d ∈ c.dims_, d.stride ≠ 0 := by
        intro d hd
        have hm : d.static ∈ (stride_table axes).map dim_t.static := by
          rw [← hst]; exact List.mem_map_of_mem _ hd
        obtain ⟨d0, hd0, he0⟩ := List.mem_map.mp hm
        have : d0.stride = d.stride := congrArg Prod.snd he0
        rw [← this]; exact hs d0 hd0
      obtain ⟨ds, hds⟩ := decode_defined c.dims_ hcne hcs c.idx_
      have hdl : ds.length = c.dims_.length := (decode_static _ _ _ _ hds).1
      rw [h2, ← h1] at hds
      rw [idx_with_stale _ _ _ he, hds]
      simp only [List.getElem?_eq_getElem (by rw [hdl]; exact hkl : k < ds.length)]
      exact ⟨_, _, rfl⟩

/-- Witness of C20, amended: axis 0 of size 2 with flow bins and axis 1 of
size 2 without; the strides are 1 and 4 and `decode` returns for the flat
index 100, outside the cells. -/
theorem decode_idx_safe_witness :
    ([⟨2, true⟩, ⟨2, false⟩] : List Axis) ≠ [] ∧
    (∀ a ∈ ([⟨2, true⟩, ⟨2, false⟩] : List Axis), a.wf) ∧
    (∀ a ∈ ([⟨2, true⟩, ⟨2, false⟩] : List Axis), 1 ≤ a.shape) ∧
    exact_cells [⟨2, true⟩, ⟨2, false⟩] < (SIZE_MOD : Int) ∧
    (stride_table [⟨2, true⟩, ⟨2, false⟩]).map dim_t.stride = [1, 4] ∧
    ∃ ds, decode 100 ([⟨2, true⟩, ⟨2, false⟩] : List Axis).length
      (stride_table [⟨2, true⟩, ⟨2, false⟩]) = some ds :=
  ⟨by decide, by decide, by decide, by decide, by decide,
    (decode_idx_safe [⟨2, true⟩, ⟨2, false⟩] (by decide) (by decide) (by decide)
      (by decide)).2.1 100⟩

/-- Counterexample to C20 as stated: on the four well-formed axes without flow
bins of sizes `2 ^ 30`, `2 ^ 30`, `16`, `1`, all of extent at least 1, the
builder's stride of axis 3 is `2 ^ 64` reduced modulo `2 ^ 64`, which is 0, and
`decode` of flat index 0 divides by it. -/
theorem decode_zero_stride_counterexample :
    zero_stride_axes ≠ [] ∧ (∀ a ∈ zero_stride_axes, a.wf ∧ 1 ≤ a.shape) ∧
    (stride_table zero_stride_axes).map dim_t.stride =
      [1, 1073741824, 1152921504606846976, 0] ∧
    ¬ (∀ d ∈ stride_table zero_stride_axes, 1 ≤ d.stride) ∧
    decode 0 zero_stride_axes.length (stride_table zero_stride_axes) = none :=
  ⟨by decide, by decide, by decide, by decide, by decide⟩

end boost.histogram
